import Mathlib

/-!
# worker-pool: a shallow embedding of `internal/workerpool`

The Go package has two files, `pool.go` (type `Pool` with `New`, `Submit`,
`Add`, `Remove`, `Close`) and `worker.go` (type `worker` with `newWorker`,
`stop`, `loop`, `process`).

The embedding is a state-passing model.  The shared state (`Pool`) holds the
fields of the Go struct together with the worker objects the pool has
allocated and the log the workers write to.  Every stretch of code that runs
atomically with respect to the other goroutines (a critical section under
`p.mu`, one channel operation, one `select`) is one Lean function; a call is
the composition of its stretches, and an interleaving of several goroutines
is a composition of stretches of different calls that keeps each call's own
program order.

What the model takes from the Go language:

* a `select` takes a ready case, any of them if several are ready (the choice
  is an argument `pick`), and blocks if none is;
* a receive is ready on a non-empty queue and on a closed one, where it yields
  the buffered jobs first and then `ok = false`;
* a send is ready when the buffer has room or a receiver takes the value
  directly, and on a closed queue, where it panics;
* `make(chan string, n)` panics for an `n` outside the range it accepts: for
  `n < 0`, and for `n` above a limit of the platform;
* a slice shares its backing array with the slices cut from it, and `append`
  writes into that array when the slice has capacity left and moves to a new,
  larger array when it has none;
* a child context is done once its own or its parent's `cancel` has been called.

The two quantities that the Go runtime fixes and the package does not, the
largest capacity `make(chan string, n)` accepts and the capacity `append` gives
a slice that has to grow, are the fields of the parameter `Runtime`.

`process` only writes a log line and is taken together with the receive
before it.  Go's `int` is modelled by `Int`; no computation of the package
comes near the word size (`nextID` grows by one per worker created).  Beyond
the limit on the capacity of the queue, exhaustion of memory is not modelled.
-/

namespace workerpool

/-! ## Data model -/

/-- Go's `chan string`: the buffered items in FIFO order, the capacity that was
given to `make`, and whether `close` has been called on it. -/
structure Chan where
  buf : List String
  cap : Nat
  closed : Bool
deriving DecidableEq, Repr

/-- Control point of the goroutine running `worker.loop`. -/
inductive LoopAt where
  /-- About to execute the outer `select` (worker.go line 48). -/
  | outer
  /-- About to execute the inner `select` with `default` (worker.go line 62). -/
  | inner
  /-- The loop has returned and the deferred `wg.Done()` has run. -/
  | returned
deriving DecidableEq, Repr

/-- The Go struct `worker` together with the state of its goroutine.  The
fields `jobs` and `wg` of the Go struct alias the pool's queue and wait group
and are read from the `Pool`; `ctx`/`cancel` is the child context, of which
`done` records that this worker's own `cancel` has been called. -/
structure worker where
  id : Int
  done : Bool
  pc : LoopAt
deriving DecidableEq, Repr

/-- One line written with `log.Printf` by a worker. -/
inductive Record where
  /-- The line `[worker id] got: data` written by `process`. -/
  | got (id : Int) (data : String)
  /-- The line `[worker id] shutting down`. -/
  | shuttingDown (id : Int)
deriving DecidableEq, Repr

/-- What the Go runtime fixes for the package: `makechanMax`, the largest `n`
for which `make(chan string, n)` returns a channel (on a 64-bit platform the
range check of `makechan` puts it near `2^44`), and `growslice c`, the capacity
`append` gives the new backing array of a full `[]*worker` of capacity `c` (Go
doubles the capacity of a small slice); the new array always has room for the
appended element, so `append` takes `max (growslice c) (len + 1)`. -/
structure Runtime where
  makechanMax : Nat
  growslice : Nat → Nat

/-- A backing array of `[]*worker`: the slots written so far, from slot 0 on,
and the number of slots it has.  A slot holds a pointer to a worker object. -/
structure Backing where
  slots : List Nat
  cap : Nat
deriving DecidableEq, Repr

/-- The slice header of `p.workers`: its backing array (`none` for the `nil`
slice), given by its index in `Pool.arrays`, and its length.  The package
never cuts `p.workers` from the left, so its first element is slot 0. -/
structure Slice where
  arr : Option Nat
  len : Nat
deriving DecidableEq, Repr

/-- The slice header of `victims` in `Remove`: a window of `len` slots from slot
`off` of a backing array. -/
structure Victims where
  arr : Option Nat
  off : Nat
  len : Nat
deriving DecidableEq, Repr

/-- The Go struct `Pool`.  `workers` is the slice header of the field
`workers`, and `arrays` holds the backing arrays allocated for it so far.  A
pointer to a worker object is the index of the object in `heap`, the list of
all worker objects allocated so far, in allocation order.  `ctxDone` records
that the root `cancel` has been called.  `wg` is the counter of the
`sync.WaitGroup`.  `log` is the output of the standard logger.  The mutex `mu`
has no field: a critical section is one function of the model. -/
structure Pool where
  jobs : Chan
  wg : Nat
  workers : Slice
  arrays : List Backing
  ctxDone : Bool
  nextID : Int
  closed : Bool
  heap : List worker
  log : List Record
deriving DecidableEq, Repr

/-- A run-time panic raised inside the package. -/
inductive Panic where
  /-- The explicit panic `workerpool: initial must be > 0` of `New`. -/
  | initialMustBePositive
  /-- The panic of `make(chan string, buf)` for a `buf` it does not accept. -/
  | makechanSizeOutOfRange
  /-- The panic `send on closed channel`. -/
  | sendOnClosedChannel
deriving DecidableEq, Repr

/-- What a `Submit` call has come to. -/
inductive SubmitResult where
  /-- Returned `nil`: the job is in the queue. -/
  | nil
  /-- Returned `ErrClosed`. -/
  | ErrClosed
  /-- Did not return: the goroutine panicked. -/
  | panicked (e : Panic)
  /-- Has not returned: no case of the `select` is ready. -/
  | blocked
deriving DecidableEq, Repr

/-! ## worker.go -/

/-- Go's `newWorker(id, jobs, wg, parent)` (worker.go lines 23-35): allocates the
worker with a fresh child context, does `wg.Add(1)` and starts the goroutine at
the top of `loop`.  Returns the pointer to the new worker. -/
def newWorker (id : Int) (p : Pool) : Nat × Pool :=
  (p.heap.length,
   { p with heap := p.heap ++ [{ id := id, done := false, pc := LoopAt.outer }],
            wg := p.wg + 1 })

/-- Set the worker at pointer `w` to what `f` makes of it. -/
def updateWorker (f : worker → worker) : Nat → List worker → List worker
  | _, [] => []
  | 0, x :: xs => f x :: xs
  | w + 1, x :: xs => x :: updateWorker f w xs

/-- Go's `w.stop()` (worker.go lines 38-40): cancels the worker's own context. -/
def worker.stop (p : Pool) (w : Nat) : Pool :=
  { p with heap := updateWorker (fun x => { x with done := true }) w p.heap }

/-- Whether `<-w.ctx.Done()` is ready: the worker's context is a child of the
pool's, so it is done once its own `cancel` or the root `cancel` has run. -/
def worker.ctxDone (p : Pool) (x : worker) : Bool :=
  x.done || p.ctxDone

/-- The worker returns from `loop`: it logs `shutting down`, and the deferred
`wg.Done()` runs.  (The counter is above zero here whenever it counts the
running workers, see `worker.step_live`.) -/
def worker.exit (p : Pool) (w : Nat) (x : worker) : Pool :=
  { p with log := p.log ++ [Record.shuttingDown x.id],
           wg := p.wg - 1,
           heap := updateWorker (fun y => { y with pc := LoopAt.returned }) w p.heap }

/-- Go's `w.process(job)` right after the receive of `job` from a non-empty
queue whose remaining content is `rest`. -/
def worker.process (p : Pool) (x : worker) (job : String) (rest : List String) : Pool :=
  { p with jobs := { p.jobs with buf := rest },
           log := p.log ++ [Record.got x.id job] }

/-- The worker takes the case `<-w.ctx.Done()` of the outer `select` (worker.go
line 59) and enters the inner loop. -/
def worker.cancelled (p : Pool) (w : Nat) : Pool :=
  { p with heap := updateWorker (fun y => { y with pc := LoopAt.inner }) w p.heap }

/-- One `select` of `worker.loop` (worker.go lines 44-78) by the worker at
pointer `w`.  `pick` is the choice Go makes when both cases of the outer
`select` are ready: `true` takes the receive.  `none`: the worker does not
exist, has returned, or is blocked in the outer `select`. -/
def worker.step (p : Pool) (w : Nat) (pick : Bool) : Option Pool :=
  match p.heap[w]? with
  | none => none
  | some x =>
    match x.pc with
    | LoopAt.returned => none
    | LoopAt.outer =>
      let recvReady := !p.jobs.buf.isEmpty || p.jobs.closed
      let doneReady := worker.ctxDone p x
      if recvReady && (!doneReady || pick) then
        match p.jobs.buf with
        | job :: rest => some (worker.process p x job rest)
        | [] => some (worker.exit p w x)
      else if doneReady then some (worker.cancelled p w)
      else none
    | LoopAt.inner =>
      match p.jobs.buf with
      | job :: rest => some (worker.process p x job rest)
      | [] => some (worker.exit p w x)

/-- The goroutine of worker `w` running on its own for at most `fuel` selects,
`pick i` being the choice made with `i` selects of fuel left. -/
def worker.loop (w : Nat) (pick : Nat → Bool) : Nat → Pool → Pool
  | 0, p => p
  | fuel + 1, p =>
    match worker.step p w (pick fuel) with
    | none => p
    | some p1 => worker.loop w pick fuel p1

/-- A schedule of worker goroutines: each entry lets the worker at that pointer
execute one `select` with that choice; an entry whose worker cannot move is
skipped. -/
def runWorkers : List (Nat × Bool) → Pool → Pool
  | [], p => p
  | (w, pick) :: rest, p =>
    match worker.step p w pick with
    | none => runWorkers rest p
    | some p1 => runWorkers rest p1

/-! ## pool.go -/

/-- The backing array behind a slice header; the `nil` slice has none, which
reads as an array without slots. -/
def Pool.backing (p : Pool) (arr : Option Nat) : Backing :=
  match arr with
  | none => { slots := [], cap := 0 }
  | some a =>
    match p.arrays[a]? with
    | none => { slots := [], cap := 0 }
    | some b => b

/-- The elements of `p.workers`, the registry: the first `len` slots of its
backing array. -/
def Pool.registry (p : Pool) : List Nat :=
  (p.backing p.workers.arr).slots.take p.workers.len

/-- Go's `p.workers = append(p.workers, w)`.  With capacity left the pointer is
written into slot `len` of the backing array, whatever that slot held; without,
the elements move to a new array, which no other slice shares. -/
def Pool.append (rt : Runtime) (p : Pool) (w : Nat) : Pool :=
  if p.workers.len < (p.backing p.workers.arr).cap then
    match p.workers.arr with
    | none => p
    | some a =>
      { p with
          arrays := p.arrays.set a
            { slots := (p.backing p.workers.arr).slots.take p.workers.len ++ [w] ++
                (p.backing p.workers.arr).slots.drop (p.workers.len + 1),
              cap := (p.backing p.workers.arr).cap },
          workers := { arr := some a, len := p.workers.len + 1 } }
  else
    { p with
        arrays := p.arrays ++
          [{ slots := p.registry ++ [w],
             cap := max (rt.growslice (p.backing p.workers.arr).cap) (p.workers.len + 1) }],
        workers := { arr := some p.arrays.length, len := p.workers.len + 1 } }

/-- The registration of a new worker: `p.workers = append(p.workers, w)` and
`p.nextID++` (pool.go lines 44-45 in `New`, lines 80-83 under the mutex in
`Add`). -/
def Pool.register (rt : Runtime) (p : Pool) (w : Nat) : Pool :=
  { (Pool.append rt p w) with nextID := p.nextID + 1 }

/-- The pool as `New` has it before its loop (pool.go lines 34-39): a queue of
capacity `cap` from `make(chan string, buf)`, a live root context, and the zero
value in every other field. -/
def Pool.make (cap : Nat) : Pool :=
  { jobs := { buf := [], cap := cap, closed := false },
    wg := 0, workers := { arr := none, len := 0 }, arrays := [],
    ctxDone := false, nextID := 0, closed := false,
    heap := [], log := [] }

/-- The loop of `New` (pool.go lines 42-46), `k` iterations to go. -/
def New.loop (rt : Runtime) : Nat → Pool → Pool
  | 0, p => p
  | k + 1, p =>
    New.loop rt k (Pool.register rt (newWorker p.nextID p).2 (newWorker p.nextID p).1)

/-- Go's `New(initial, buf)` (pool.go lines 29-49): the explicit panic for
`initial <= 0`, then `make(chan string, buf)`, which panics for a `buf` below 0
or above `rt.makechanMax`, then the loop. -/
def New (rt : Runtime) (initial buf : Int) : Except Panic Pool :=
  if initial ≤ 0 then Except.error Panic.initialMustBePositive
  else if buf < 0 ∨ (rt.makechanMax : Int) < buf then
    Except.error Panic.makechanSizeOutOfRange
  else Except.ok (New.loop rt initial.toNat (Pool.make buf.toNat))

/-- The `select` of `Submit` (pool.go lines 62-68).  The send case is ready when
the queue has room, and also when the queue is closed, in which case taking it
panics; the other case is ready once the root context is cancelled.  `pick` is
the choice Go makes when both are ready: `true` takes the send. -/
def Submit.select (p : Pool) (data : String) (pick : Bool) : SubmitResult × Pool :=
  let sendReady := p.jobs.closed || decide (p.jobs.buf.length < p.jobs.cap)
  if sendReady && (!p.ctxDone || pick) then
    if p.jobs.closed then (SubmitResult.panicked Panic.sendOnClosedChannel, p)
    else (SubmitResult.nil, { p with jobs := { p.jobs with buf := p.jobs.buf ++ [data] } })
  else if p.ctxDone then (SubmitResult.ErrClosed, p)
  else (SubmitResult.blocked, p)

/-- The send of `Submit` completing by direct hand-over to the worker at
pointer `w`, which has not returned and so comes to a receive of the open, empty
queue: the only way a send completes on a queue of capacity 0.  The worker goes
on to `process` the job and stays in the loop it is in. -/
def Submit.handoff (p : Pool) (data : String) (w : Nat) : Option Pool :=
  match p.heap[w]? with
  | none => none
  | some x =>
    if p.jobs.closed || !p.jobs.buf.isEmpty || decide (x.pc = LoopAt.returned) then none
    else some { p with log := p.log ++ [Record.got x.id data] }

/-- Go's `Submit(data)` (pool.go lines 53-69) run without another call of the
pool in between: the read of `p.closed` under the mutex, then the `select`. -/
def Submit (p : Pool) (data : String) (pick : Bool) : SubmitResult × Pool :=
  if p.closed then (SubmitResult.ErrClosed, p)
  else Submit.select p data pick

/-- One iteration of the loop of `Add`, first half (pool.go line 78):
`newWorker(p.nextID, ...)`, which reads `p.nextID` outside the mutex. -/
def Add.create (p : Pool) : Nat × Pool :=
  newWorker p.nextID p

/-- The loop of `Add` (pool.go lines 77-84) run without another call of the pool
in between, `k` iterations to go. -/
def Add.loop (rt : Runtime) : Nat → Pool → Pool
  | 0, p => p
  | k + 1, p => Add.loop rt k (Pool.register rt (Add.create p).2 (Add.create p).1)

/-- Go's `Add(n)` (pool.go lines 73-85). -/
def Add (rt : Runtime) (p : Pool) (n : Int) : Pool :=
  if n ≤ 0 then p else Add.loop rt n.toNat p

/-- The critical section of `Remove` (pool.go lines 94-101), entered with
`n > 0`: `victims` is cut from `p.workers` and shares its backing array, and
`p.workers` is cut down to the slots before it.  No slot is copied or written. -/
def Remove.detach (p : Pool) (n : Int) : Victims × Pool :=
  let n1 : Int := if n > (p.workers.len : Int) then (p.workers.len : Int) else n
  ({ arr := p.workers.arr, off := p.workers.len - n1.toNat, len := n1.toNat },
   { p with workers := { arr := p.workers.arr, len := p.workers.len - n1.toNat } })

/-- The element `victims[i]` as the backing array holds it now.  `none`: the
slot has never been written; it is not within any slice the package makes. -/
def Remove.victim (p : Pool) (v : Victims) (i : Nat) : Option Nat :=
  (p.backing v.arr).slots[v.off + i]?

/-- One iteration of the loop that stops the victims (pool.go lines 104-106):
it reads `victims[i]` from the backing array and calls `stop` on it. -/
def Remove.stopAt (p : Pool) (v : Victims) (i : Nat) : Pool :=
  match Remove.victim p v i with
  | none => p
  | some w => worker.stop p w

/-- The iterations of that loop for the indices `is`, in order. -/
def Remove.stopEach (v : Victims) : List Nat → Pool → Pool
  | [], p => p
  | i :: is, p => Remove.stopEach v is (Remove.stopAt p v i)

/-- The loop that stops the victims (pool.go lines 104-106) run without another
call of the pool in between. -/
def Remove.stopAll (p : Pool) (v : Victims) : Pool :=
  Remove.stopEach v (List.range v.len) p

/-- Go's `Remove(n)` (pool.go lines 89-107) run without another call of the pool
in between. -/
def Remove (p : Pool) (n : Int) : Pool :=
  if n ≤ 0 then p
  else Remove.stopAll (Remove.detach p n).2 (Remove.detach p n).1

/-- The statements `p.closed = true` and `close(p.jobs)` (pool.go lines 117-118). -/
def Close.mark (p : Pool) : Pool :=
  { p with closed := true, jobs := { p.jobs with closed := true } }

/-- The first critical section of `Close` (pool.go lines 112-119).  `none`: the
pool was closed already and `Close` returns at line 115. -/
def Close.begin (p : Pool) : Option Pool :=
  if p.closed then none
  else some (Close.mark p)

/-- Whether `p.wg.Wait()` (pool.go line 121) can return. -/
def Close.waitDone (p : Pool) : Bool :=
  p.wg == 0

/-- The call `p.cancel()` of `Close` (pool.go line 122). -/
def Close.cancel (p : Pool) : Pool :=
  { p with ctxDone := true }

/-- The second critical section of `Close` (pool.go lines 125-127):
`p.workers = nil`. -/
def Close.clear (p : Pool) : Pool :=
  { p with workers := { arr := none, len := 0 } }

/-- Go's `Close()` (pool.go lines 111-128) run without another call of the pool
in between; while it waits in `wg.Wait()` the workers run by `sched`.  `none`:
the wait group is not at zero after `sched`, the call is still waiting. -/
def Close (p : Pool) (sched : List (Nat × Bool)) : Option Pool :=
  match Close.begin p with
  | none => some p
  | some p1 =>
    if Close.waitDone (runWorkers sched p1) then
      some (Close.clear (Close.cancel (runWorkers sched p1)))
    else none

/-- The jobs processed so far, in the order of their log lines. -/
def processed (p : Pool) : List String :=
  p.log.filterMap fun r =>
    match r with
    | Record.got _ data => some data
    | Record.shuttingDown _ => none

/-! ## Histories of a single client -/

/-- One event of a history in which a single goroutine calls the pool, one call
after the other, while the worker goroutines run in between. -/
inductive Event where
  /-- The call `Submit(data)` whose send goes to the buffer. -/
  | submit (data : String) (pick : Bool)
  /-- The call `Submit(data)` whose send is handed to the worker at `w`. -/
  | submitTo (data : String) (w : Nat)
  /-- The call `Add(n)`. -/
  | add (n : Int)
  /-- The call `Remove(n)`. -/
  | remove (n : Int)
  /-- The call `Close()`, the workers running by `sched` while it waits. -/
  | close (sched : List (Nat × Bool))
  /-- One `select` of the worker at `w`; skipped if that worker cannot move. -/
  | work (w : Nat) (pick : Bool)
deriving DecidableEq, Repr

/-- A pool together with the jobs whose `Submit` has returned `nil` so far. -/
structure Run where
  pool : Pool
  accepted : List String
deriving DecidableEq, Repr

/-- The effect of one event.  `none`: the call does not return (it stays
blocked, or it panics), so the client makes no further call. -/
def Event.apply (rt : Runtime) (r : Run) : Event → Option Run
  | Event.submit data pick =>
    match Submit r.pool data pick with
    | (SubmitResult.nil, p) => some { pool := p, accepted := r.accepted ++ [data] }
    | (SubmitResult.ErrClosed, p) => some { pool := p, accepted := r.accepted }
    | (SubmitResult.panicked _, _) => none
    | (SubmitResult.blocked, _) => none
  | Event.submitTo data w =>
    if r.pool.closed then some r
    else
      match Submit.handoff r.pool data w with
      | some p => some { pool := p, accepted := r.accepted ++ [data] }
      | none => none
  | Event.add n => some { r with pool := Add rt r.pool n }
  | Event.remove n => some { r with pool := Remove r.pool n }
  | Event.close sched =>
    match Close r.pool sched with
    | some p => some { r with pool := p }
    | none => none
  | Event.work w pick => some { r with pool := runWorkers [(w, pick)] r.pool }

/-- The effect of a history, event by event. -/
def exec (rt : Runtime) : List Event → Run → Option Run
  | [], r => some r
  | e :: es, r =>
    match Event.apply rt r e with
    | none => none
    | some r1 => exec rt es r1


/-- Whether the worker's goroutine has not yet returned from `loop`. -/
def worker.running (x : worker) : Bool :=
  match x.pc with
  | LoopAt.returned => false
  | _ => true

/-- The number of worker goroutines that have not returned from `loop`. -/
def live (p : Pool) : Nat :=
  p.heap.countP worker.running

/-- A runtime for the concrete executions below: queues of up to `2^44 - 7` jobs
and slices that double, as Go grows a slice of fewer than 256 pointers. -/
def Runtime.sample : Runtime :=
  { makechanMax := 2 ^ 44 - 7, growslice := fun c => 2 * c }

/-! ## Worker objects -/

theorem updateWorker_length (f : worker → worker) (w : Nat) (l : List worker) :
    (updateWorker f w l).length = l.length := by
  induction l generalizing w with
  | nil => cases w <;> rfl
  | cons x xs ih => cases w <;> simp [updateWorker, ih]

theorem updateWorker_getElem? (f : worker → worker) (w i : Nat) (l : List worker) :
    (updateWorker f w l)[i]? = if i = w then l[i]?.map f else l[i]? := by
  induction l generalizing w i with
  | nil => cases w <;> simp [updateWorker]
  | cons x xs ih =>
    cases w with
    | zero => cases i <;> simp [updateWorker]
    | succ w => cases i <;> simp [updateWorker, ih]

/-! ## The slice of workers -/

theorem Pool.registry_congr {p q : Pool} (h1 : q.workers = p.workers)
    (h2 : q.arrays = p.arrays) : q.registry = p.registry := by
  simp [Pool.registry, Pool.backing, h1, h2]

theorem take_succ_write (l : List Nat) (n w : Nat) :
    (l.take n ++ [w] ++ l.drop (n + 1)).take (n + 1) = l.take n ++ [w] := by
  by_cases h : n ≤ l.length
  · have hl : (l.take n ++ [w]).length = n + 1 := by simp [h]
    rw [List.take_append_of_le_length (by omega)]
    exact List.take_of_length_le (by omega)
  · have h1 : l.drop (n + 1) = [] := List.drop_of_length_le (by omega)
    rw [h1, List.append_nil]
    exact List.take_of_length_le (by simp)

theorem Pool.backing_none (p : Pool) (a : Nat) (h : p.arrays[a]? = none) :
    p.backing (some a) = { slots := [], cap := 0 } := by
  simp [Pool.backing, h]

theorem Pool.backing_some (p : Pool) (a : Nat) (b : Backing) (h : p.arrays[a]? = some b) :
    p.backing (some a) = b := by
  simp [Pool.backing, h]

/-- What `append` does to the slice, whichever way it takes: the registry grows
by the new pointer at its end, and no other field of the pool changes. -/
theorem Pool.append_spec (rt : Runtime) (p : Pool) (w : Nat) :
    (Pool.append rt p w).registry = p.registry ++ [w] ∧
    (Pool.append rt p w).workers.len = p.workers.len + 1 ∧
    (Pool.append rt p w).jobs = p.jobs ∧ (Pool.append rt p w).wg = p.wg ∧
    (Pool.append rt p w).ctxDone = p.ctxDone ∧ (Pool.append rt p w).nextID = p.nextID ∧
    (Pool.append rt p w).closed = p.closed ∧ (Pool.append rt p w).heap = p.heap ∧
    (Pool.append rt p w).log = p.log := by
  unfold Pool.append
  split_ifs with hcap
  · cases harr : p.workers.arr with
    | none => simp [Pool.backing, harr] at hcap
    | some a =>
      cases hb : p.arrays[a]? with
      | none => simp [harr, Pool.backing_none p a hb] at hcap
      | some b =>
        have ha : a < p.arrays.length := by
          by_contra hlt
          rw [List.getElem?_eq_none (by omega)] at hb
          exact absurd hb (by simp)
        refine ⟨?_, rfl, rfl, rfl, rfl, rfl, rfl, rfl, rfl⟩
        simp only [Pool.registry, Pool.backing, harr, hb, List.getElem?_set_self ha]
        exact take_succ_write b.slots p.workers.len w
  · refine ⟨?_, rfl, rfl, rfl, rfl, rfl, rfl, rfl, rfl⟩
    have hl : (p.registry ++ [w]).length ≤ p.workers.len + 1 := by
      simp [Pool.registry]
    simp only [Pool.registry, Pool.backing, List.getElem?_concat_length] at hl ⊢
    exact List.take_of_length_le hl

theorem Pool.register_spec (rt : Runtime) (p : Pool) (w : Nat) :
    (Pool.register rt p w).registry = p.registry ++ [w] ∧
    (Pool.register rt p w).workers.len = p.workers.len + 1 ∧
    (Pool.register rt p w).jobs = p.jobs ∧ (Pool.register rt p w).wg = p.wg ∧
    (Pool.register rt p w).ctxDone = p.ctxDone ∧
    (Pool.register rt p w).nextID = p.nextID + 1 ∧
    (Pool.register rt p w).closed = p.closed ∧ (Pool.register rt p w).heap = p.heap ∧
    (Pool.register rt p w).log = p.log := by
  obtain ⟨a1, a2, a3, a4, a5, -, a7, a8, a9⟩ := Pool.append_spec rt p w
  refine ⟨?_, a2, a3, a4, a5, rfl, a7, a8, a9⟩
  rw [← a1]
  exact Pool.registry_congr rfl rfl

/-! ## New -/

theorem map_range'_succ {α : Type} (f : Nat → α) (s k : Nat) :
    (List.range' (s + 1) k).map f = (List.range' s k).map fun i => f (i + 1) := by
  induction k generalizing s with
  | zero => rfl
  | succ k ih => simp [List.range'_succ, ih]

theorem New.loop_spec_fields (rt : Runtime) (k : Nat) (p : Pool) :
    (New.loop rt k p).registry = p.registry ++ List.range' p.heap.length k ∧
    (New.loop rt k p).workers.len = p.workers.len + k ∧
    (New.loop rt k p).jobs = p.jobs ∧
    (New.loop rt k p).wg = p.wg + k ∧
    (New.loop rt k p).ctxDone = p.ctxDone ∧
    (New.loop rt k p).nextID = p.nextID + k ∧
    (New.loop rt k p).closed = p.closed ∧
    (New.loop rt k p).heap = p.heap ++ (List.range' 0 k).map (fun i : Nat =>
      ({ id := p.nextID + (i : Int), done := false, pc := LoopAt.outer } : worker)) ∧
    (New.loop rt k p).log = p.log := by
  induction k generalizing p with
  | zero => simp [New.loop]
  | succ k ih =>
    rw [New.loop]
    obtain ⟨i1, i2, i3, i4, i5, i6, i7, i8, i9⟩ :=
      ih (Pool.register rt (newWorker p.nextID p).2 (newWorker p.nextID p).1)
    obtain ⟨r1, r2, r3, r4, r5, r6, r7, r8, r9⟩ :=
      Pool.register_spec rt (newWorker p.nextID p).2 (newWorker p.nextID p).1
    have hreg : (newWorker p.nextID p).2.registry = p.registry := Pool.registry_congr rfl rfl
    rw [i1, i2, i3, i4, i5, i6, i7, i8, i9, r1, r2, r3, r4, r5, r6, r7, r8, r9, hreg]
    have h := map_range'_succ (fun i : Nat =>
      ({ id := p.nextID + (i : Int), done := false, pc := LoopAt.outer } : worker)) 0 k
    simp only [Nat.cast_add, Nat.cast_one, ← add_assoc] at h
    have h1 : ∀ i : Nat, p.nextID + (i : Int) + 1 = p.nextID + 1 + (i : Int) := fun i => by omega
    simp only [h1] at h
    simp only [newWorker, List.length_append, List.length_singleton, List.append_assoc,
      List.singleton_append, List.range'_succ, List.map_cons, h, Nat.cast_zero, add_zero]
    refine ⟨trivial, by omega, trivial, by omega, trivial, by push_cast; omega, trivial,
      trivial, trivial⟩

/-- C9, counterexample: `New(1, -1)` has `initial > 0` and still fails fatally,
in `make(chan string, buf)`; so does `New(1, 2^62)` on a platform whose
`make(chan string, n)` accepts no `n` above `2^44 - 7`. -/
theorem New_bad_buf_panics :
    ¬ ((1 : Int) ≤ 0) ∧
    New Runtime.sample 1 (-1) = Except.error Panic.makechanSizeOutOfRange ∧
    New Runtime.sample 1 (2 ^ 62) = Except.error Panic.makechanSizeOutOfRange :=
  ⟨by decide, rfl, rfl⟩

/-- C9, amended: `New(initial, buf)` fails fatally if and only if `initial <= 0`
or `buf` is a capacity that `make(chan string, buf)` does not accept, that is
`buf < 0` or `buf` above the limit of the platform; for `initial > 0` and a
`buf` from 0 up to that limit it returns an open pool with an empty queue of
capacity `buf`, exactly `initial` registered workers whose ids are
`0, 1, ..., initial-1` in registry order, and `nextID = initial`; the workers
are the only ones allocated, none is stopped, each is at the top of its loop,
the wait group counts them, the root context is live and nothing is logged. -/
theorem New_spec (rt : Runtime) (initial buf : Int) :
    ((∃ e, New rt initial buf = Except.error e) ↔
      (initial ≤ 0 ∨ buf < 0 ∨ (rt.makechanMax : Int) < buf)) ∧
    (0 < initial → 0 ≤ buf → buf ≤ (rt.makechanMax : Int) →
      ∃ p, New rt initial buf = Except.ok p ∧
        p.closed = false ∧
        p.jobs = { buf := [], cap := buf.toNat, closed := false } ∧
        (p.jobs.cap : Int) = buf ∧
        (p.registry.length : Int) = initial ∧
        (p.workers.len : Int) = initial ∧
        p.registry.map (fun w => p.heap[w]?.map worker.id) =
          (List.range initial.toNat).map (fun i : Nat => some (i : Int)) ∧
        p.nextID = initial ∧
        p.registry = List.range initial.toNat ∧
        p.heap = (List.range initial.toNat).map
          (fun i : Nat => { id := (i : Int), done := false, pc := LoopAt.outer }) ∧
        (p.wg : Int) = initial ∧
        p.ctxDone = false ∧
        p.log = []) := by
  constructor
  · unfold New
    by_cases h1 : initial ≤ 0
    · simp [h1]
    · by_cases h2 : buf < 0 ∨ (rt.makechanMax : Int) < buf
      · simp [h1, h2]
      · simp [h1, h2]
  · intro h1 h2 h3
    have h4 : ¬ initial ≤ 0 := by omega
    have h5 : ¬ (buf < 0 ∨ (rt.makechanMax : Int) < buf) := by omega
    refine ⟨New.loop rt initial.toNat (Pool.make buf.toNat),
      by simp only [New, h4, h5, if_false], ?_⟩
    obtain ⟨i1, i2, i3, i4, i5, i6, i7, i8, i9⟩ :=
      New.loop_spec_fields rt initial.toNat (Pool.make buf.toNat)
    have h6 : ((initial.toNat : Nat) : Int) = initial := Int.toNat_of_nonneg (by omega)
    have h7 : ((buf.toNat : Nat) : Int) = buf := Int.toNat_of_nonneg h2
    have hreg : (Pool.make buf.toNat).registry = [] := rfl
    rw [i1, i2, i3, i4, i5, i6, i7, i8, i9, hreg]
    simp only [Pool.make, List.length_nil, List.nil_append, Nat.zero_add, zero_add,
      ← List.range_eq_range', List.length_range, h6, h7, true_and]
    refine ⟨?_, trivial⟩
    apply List.map_congr_left
    intro w hw
    have hw1 : w < initial.toNat := List.mem_range.mp hw
    rw [List.getElem?_map, List.getElem?_range hw1]
    rfl

/-- C9, the amended claim at `New(2, 3)`. -/
theorem New_spec_witness :
    ∃ p, New Runtime.sample 2 3 = Except.ok p ∧
        p.closed = false ∧
        p.jobs = { buf := [], cap := (3 : Int).toNat, closed := false } ∧
        (p.jobs.cap : Int) = 3 ∧
        (p.registry.length : Int) = 2 ∧
        (p.workers.len : Int) = 2 ∧
        p.registry.map (fun w => p.heap[w]?.map worker.id) =
          (List.range (2 : Int).toNat).map (fun i : Nat => some (i : Int)) ∧
        p.nextID = 2 ∧
        p.registry = List.range (2 : Int).toNat ∧
        p.heap = (List.range (2 : Int).toNat).map
          (fun i : Nat => { id := (i : Int), done := false, pc := LoopAt.outer }) ∧
        (p.wg : Int) = 2 ∧
        p.ctxDone = false ∧
        p.log = [] :=
  (New_spec Runtime.sample 2 3).2 (by decide) (by decide) (by decide)

/-! ## Remove -/

theorem foldl_stop_fields (vs : List Nat) (p : Pool) :
    (vs.foldl worker.stop p).jobs = p.jobs ∧ (vs.foldl worker.stop p).wg = p.wg ∧
    (vs.foldl worker.stop p).workers = p.workers ∧
    (vs.foldl worker.stop p).arrays = p.arrays ∧
    (vs.foldl worker.stop p).ctxDone = p.ctxDone ∧
    (vs.foldl worker.stop p).nextID = p.nextID ∧ (vs.foldl worker.stop p).closed = p.closed ∧
    (vs.foldl worker.stop p).log = p.log ∧
    (vs.foldl worker.stop p).heap.length = p.heap.length := by
  induction vs generalizing p with
  | nil => simp
  | cons v vs ih =>
    have h := ih (worker.stop p v)
    simp only [List.foldl_cons] at h ⊢
    simpa [worker.stop, updateWorker_length] using h

theorem foldl_stop_heap (vs : List Nat) (p : Pool) (w : Nat) :
    (vs.foldl worker.stop p).heap[w]? =
      p.heap[w]?.map fun x => if w ∈ vs then { x with done := true } else x := by
  induction vs generalizing p with
  | nil => simp
  | cons v vs ih =>
    have h := ih (worker.stop p v)
    simp only [List.foldl_cons] at h ⊢
    rw [h]
    simp only [worker.stop, updateWorker_getElem?]
    by_cases hwv : w = v
    · subst hwv
      cases hx : p.heap[w]? with
      | none => simp
      | some x => by_cases hm : w ∈ vs <;> simp [hm]
    · cases hx : p.heap[w]? with
      | none => simp [hwv]
      | some x => by_cases hm : w ∈ vs <;> simp [hm, hwv]

theorem range_filterMap_window (l : List Nat) (off n : Nat) :
    (List.range n).filterMap (fun i => l[off + i]?) = (l.drop off).take n := by
  induction n with
  | zero => simp
  | succ n ih =>
    rw [List.range_succ, List.filterMap_append, ih, List.take_succ, List.getElem?_drop]
    cases h : l[off + n]? <;> simp [List.filterMap_cons, h]

theorem Remove.victim_congr {p q : Pool} (h : q.arrays = p.arrays) (v : Victims) (i : Nat) :
    Remove.victim q v i = Remove.victim p v i := by
  simp [Remove.victim, Pool.backing, h]

/-- The loop over the victims, run while no other call writes to the backing
array, stops the workers that the array holds in the window of `victims`. -/
theorem Remove.stopEach_eq (v : Victims) (is : List Nat) (p : Pool) :
    Remove.stopEach v is p = (is.filterMap (Remove.victim p v)).foldl worker.stop p := by
  induction is generalizing p with
  | nil => rfl
  | cons i is ih =>
    rw [Remove.stopEach, ih]
    have hv : ∀ j, Remove.victim (Remove.stopAt p v i) v j = Remove.victim p v j := by
      intro j
      apply Remove.victim_congr
      unfold Remove.stopAt
      cases Remove.victim p v i <;> rfl
    simp only [hv, List.filterMap_cons]
    unfold Remove.stopAt
    cases Remove.victim p v i <;> rfl

theorem Remove.stopAll_eq (p : Pool) (v : Victims) :
    Remove.stopAll p v =
      (((p.backing v.arr).slots.drop v.off).take v.len).foldl worker.stop p := by
  rw [Remove.stopAll, Remove.stopEach_eq]
  have h : (List.range v.len).filterMap (Remove.victim p v) =
      ((p.backing v.arr).slots.drop v.off).take v.len :=
    range_filterMap_window (p.backing v.arr).slots v.off v.len
  rw [h]

/-- The victims of a `Remove(n)` that no call overlaps are the last `m` entries
of the registry, for `m = min(max(n,0), len)`. -/
theorem Remove_eq_foldl (p : Pool) (n : Int) :
    Remove p n =
      (p.registry.drop (p.workers.len - (min (max n 0) p.workers.len).toNat)).foldl worker.stop
        { p with workers :=
            { arr := p.workers.arr,
              len := p.workers.len - (min (max n 0) p.workers.len).toNat } } := by
  by_cases hn : n ≤ 0
  · have hm : (min (max n 0) (p.workers.len : Int)).toNat = 0 := by
      rw [max_eq_right hn]
      simp
    have hd : p.registry.drop p.workers.len = [] :=
      List.drop_of_length_le (by simp [Pool.registry])
    simp [Remove, hn, hm, hd]
  · have hm : (if n > (p.workers.len : Int) then (p.workers.len : Int) else n).toNat =
        (min (max n 0) (p.workers.len : Int)).toNat := by
      rw [max_eq_left (by omega)]
      split
      · rw [min_eq_right (by omega)]
      · rw [min_eq_left (by omega)]
    have hle : (min (max n 0) (p.workers.len : Int)).toNat ≤ p.workers.len := by omega
    simp only [Remove, hn, if_false, Remove.stopAll_eq]
    simp only [Remove.detach, hm]
    have hb : ({ p with workers :=
        { arr := p.workers.arr,
          len := p.workers.len - (min (max n 0) (p.workers.len : Int)).toNat } } : Pool).backing
        p.workers.arr = p.backing p.workers.arr := rfl
    rw [hb]
    simp only [Pool.registry, List.drop_take]
    congr 2
    omega

theorem Remove_eq (p : Pool) (n : Int) :
    (Remove p n).registry =
      p.registry.take (p.workers.len - (min (max n 0) p.workers.len).toNat) ∧
    (Remove p n).workers.len = p.workers.len - (min (max n 0) p.workers.len).toNat ∧
    (∀ w, (Remove p n).heap[w]? = p.heap[w]?.map fun x =>
      if w ∈ p.registry.drop (p.workers.len - (min (max n 0) p.workers.len).toNat)
      then { x with done := true } else x) ∧
    (Remove p n).heap.length = p.heap.length ∧
    (Remove p n).nextID = p.nextID ∧
    (Remove p n).closed = p.closed ∧
    (Remove p n).jobs = p.jobs ∧
    (Remove p n).wg = p.wg ∧
    (Remove p n).ctxDone = p.ctxDone ∧
    (Remove p n).log = p.log := by
  rw [Remove_eq_foldl]
  obtain ⟨f1, f2, f3, f4, f5, f6, f7, f8, f9⟩ := foldl_stop_fields
    (p.registry.drop (p.workers.len - (min (max n 0) p.workers.len).toNat))
    { p with workers :=
        { arr := p.workers.arr,
          len := p.workers.len - (min (max n 0) p.workers.len).toNat } }
  refine ⟨?_, by rw [f3], fun w => foldl_stop_heap _ _ w, f9, f6, f7, f1, f2, f5, f8⟩
  rw [Pool.registry_congr f3 f4]
  simp only [Pool.registry, Pool.backing, List.take_take]
  congr 1
  omega

/-! ## What a worker's select leaves alone -/

/-- The three things a `select` of a live worker can do: receive and process
the head of the queue; find the queue empty and return (from the outer `select`
only when the queue is closed); or leave the outer `select` by the cancellation
case. -/
theorem worker.step_cases {p p1 : Pool} {w : Nat} {pick : Bool}
    (h : worker.step p w pick = some p1) :
    ∃ x, p.heap[w]? = some x ∧ x.pc ≠ LoopAt.returned ∧
      ((∃ job rest, p.jobs.buf = job :: rest ∧ p1 = worker.process p x job rest) ∨
       (p.jobs.buf = [] ∧ (x.pc = LoopAt.inner ∨ p.jobs.closed = true) ∧
          p1 = worker.exit p w x) ∨
       (x.pc = LoopAt.outer ∧ worker.ctxDone p x = true ∧ p1 = worker.cancelled p w)) := by
  unfold worker.step at h
  cases hx : p.heap[w]? with
  | none => simp [hx] at h
  | some x =>
    simp only [hx] at h
    refine ⟨x, rfl, ?_⟩
    cases hpc : x.pc with
    | returned => simp [hpc] at h
    | inner =>
      simp only [hpc] at h
      refine ⟨by simp, ?_⟩
      cases hb : p.jobs.buf with
      | nil =>
        simp only [hb] at h
        injection h with h
        exact Or.inr (Or.inl ⟨rfl, Or.inl rfl, h.symm⟩)
      | cons job rest =>
        simp only [hb] at h
        injection h with h
        exact Or.inl ⟨job, rest, rfl, h.symm⟩
    | outer =>
      simp only [hpc] at h
      refine ⟨by simp, ?_⟩
      split_ifs at h with c1 c2
      · cases hb : p.jobs.buf with
        | nil =>
          simp only [hb] at h
          injection h with h
          have c3 : p.jobs.closed = true ∧ (worker.ctxDone p x = false ∨ pick = true) := by
            simpa [hb] using c1
          exact Or.inr (Or.inl ⟨rfl, Or.inr c3.1, h.symm⟩)
        | cons job rest =>
          simp only [hb] at h
          injection h with h
          exact Or.inl ⟨job, rest, rfl, h.symm⟩
      · injection h with h
        exact Or.inr (Or.inr ⟨rfl, c2, h.symm⟩)

theorem worker.step_fields {p p1 : Pool} {w : Nat} {pick : Bool}
    (h : worker.step p w pick = some p1) :
    p1.closed = p.closed ∧ p1.jobs.closed = p.jobs.closed ∧ p1.jobs.cap = p.jobs.cap ∧
    p1.ctxDone = p.ctxDone ∧ p1.workers = p.workers ∧ p1.nextID = p.nextID ∧
    p1.arrays = p.arrays := by
  obtain ⟨x, -, -, h1 | h1 | h1⟩ := worker.step_cases h
  · obtain ⟨job, rest, -, rfl⟩ := h1
    simp [worker.process]
  · obtain ⟨-, -, rfl⟩ := h1
    simp [worker.exit]
  · obtain ⟨-, -, rfl⟩ := h1
    simp [worker.cancelled]

theorem runWorkers_fields (sched : List (Nat × Bool)) (p : Pool) :
    (runWorkers sched p).closed = p.closed ∧ (runWorkers sched p).jobs.closed = p.jobs.closed ∧
    (runWorkers sched p).jobs.cap = p.jobs.cap ∧ (runWorkers sched p).ctxDone = p.ctxDone ∧
    (runWorkers sched p).workers = p.workers ∧ (runWorkers sched p).nextID = p.nextID ∧
    (runWorkers sched p).arrays = p.arrays := by
  induction sched generalizing p with
  | nil => simp [runWorkers]
  | cons a rest ih =>
    obtain ⟨w, pick⟩ := a
    simp only [runWorkers]
    cases hs : worker.step p w pick with
    | none => exact ih p
    | some p1 =>
      obtain ⟨a1, a2, a3, a4, a5, a6, a7⟩ := worker.step_fields hs
      obtain ⟨b1, b2, b3, b4, b5, b6, b7⟩ := ih p1
      exact ⟨b1.trans a1, b2.trans a2, b3.trans a3, b4.trans a4, b5.trans a5, b6.trans a6,
        b7.trans a7⟩

theorem runWorkers_registry (sched : List (Nat × Bool)) (p : Pool) :
    (runWorkers sched p).registry = p.registry :=
  Pool.registry_congr (runWorkers_fields sched p).2.2.2.2.1 (runWorkers_fields sched p).2.2.2.2.2.2

/-! ## The closed flag never goes back -/

theorem Add.loop_eq_New_loop (rt : Runtime) (k : Nat) (p : Pool) :
    Add.loop rt k p = New.loop rt k p := by
  induction k generalizing p with
  | zero => rfl
  | succ k ih => rw [Add.loop, New.loop, ih]; rfl

theorem Add_closed (rt : Runtime) (p : Pool) (n : Int) : (Add rt p n).closed = p.closed := by
  unfold Add
  split
  · rfl
  · rw [Add.loop_eq_New_loop]
    exact (New.loop_spec_fields rt _ p).2.2.2.2.2.2.1

theorem Remove_closed (p : Pool) (n : Int) : (Remove p n).closed = p.closed := by
  exact (Remove_eq p n).2.2.2.2.2.1

theorem Close_cases {p p1 : Pool} {sched : List (Nat × Bool)}
    (h : Close p sched = some p1) :
    (p.closed = true ∧ p1 = p) ∨
    (p.closed = false ∧
      (runWorkers sched (Close.mark p)).wg = 0 ∧
      p1 = Close.clear (Close.cancel
        (runWorkers sched (Close.mark p)))) := by
  cases hc : p.closed with
  | true =>
    have h0 : Close p sched = some p := by simp [Close, Close.begin, hc]
    rw [h0] at h
    injection h with h
    exact Or.inl ⟨rfl, h.symm⟩
  | false =>
    have hb : Close.begin p = some (Close.mark p) := by
      simp [Close.begin, hc]
    simp only [Close, hb] at h
    split_ifs at h with c
    injection h with h
    have c1 : (runWorkers sched (Close.mark p)).wg = 0 := by
      simpa [Close.waitDone] using c
    exact Or.inr ⟨rfl, c1, h.symm⟩

theorem Close_closed {p p1 : Pool} {sched : List (Nat × Bool)}
    (h : Close p sched = some p1) : p1.closed = true := by
  rcases Close_cases h with ⟨hc, rfl⟩ | ⟨-, -, rfl⟩
  · exact hc
  · simp [Close.clear, Close.cancel, Close.mark, (runWorkers_fields sched _).1]

theorem Submit_of_closed (p : Pool) (data : String) (pick : Bool) (h : p.closed = true) :
    Submit p data pick = (SubmitResult.ErrClosed, p) := by
  simp [Submit, h]

theorem Event.apply_closed {rt : Runtime} {r r1 : Run} {e : Event} (h : Event.apply rt r e = some r1)
    (hc : r.pool.closed = true) : r1.pool.closed = true := by
  cases e with
  | submit data pick =>
    simp only [Event.apply, Submit_of_closed _ _ _ hc] at h
    injection h with h
    subst h
    exact hc
  | submitTo data w =>
    simp only [Event.apply, hc, if_true] at h
    injection h with h
    subst h
    exact hc
  | add n =>
    simp only [Event.apply] at h
    injection h with h
    subst h
    simpa [Add_closed] using hc
  | remove n =>
    simp only [Event.apply] at h
    injection h with h
    subst h
    simpa [Remove_closed] using hc
  | close sched =>
    simp only [Event.apply] at h
    split at h
    · rename_i p2 hp2
      injection h with h
      subst h
      exact Close_closed hp2
    · exact absurd h (by simp)
  | work w pick =>
    simp only [Event.apply] at h
    injection h with h
    subst h
    simpa [(runWorkers_fields _ _).1] using hc

theorem exec_closed (es : List Event) {rt : Runtime} {r r1 : Run} (h : exec rt es r = some r1)
    (hc : r.pool.closed = true) : r1.pool.closed = true := by
  induction es generalizing r with
  | nil =>
    simp only [exec] at h
    injection h with h
    subst h
    exact hc
  | cons e es ih =>
    simp only [exec] at h
    split at h
    · exact absurd h (by simp)
    · rename_i r2 hr2
      exact ih h (Event.apply_closed hr2 hc)

/-- C4: once a `Close` call has returned (from whatever pool state `p` the
earlier calls left), and after any further history `later` of calls and worker
steps, `Submit` of any job returns `ErrClosed` and leaves the whole pool state
(queue, workers, `nextID`, `closed` and all the rest) as it was, so nothing is
enqueued; the send is not handed to a worker either. -/
theorem Submit_after_Close (rt : Runtime) (p p1 : Pool) (sched : List (Nat × Bool)) (accepted : List String)
    (later : List Event) (r : Run) (data : String) (pick : Bool) (w : Nat)
    (h1 : Close p sched = some p1)
    (h2 : exec rt later { pool := p1, accepted := accepted } = some r) :
    Submit r.pool data pick = (SubmitResult.ErrClosed, r.pool) ∧
    Event.apply rt r (Event.submit data pick) = some r ∧
    Event.apply rt r (Event.submitTo data w) = some r := by
  have hc : r.pool.closed = true := exec_closed later h2 (Close_closed h1)
  refine ⟨Submit_of_closed _ _ _ hc, ?_, ?_⟩
  · simp [Event.apply, Submit_of_closed _ _ _ hc]
  · simp [Event.apply, hc]

/-- C4 at the pool `New(2, 3)` with one job queued: `Close` returns once both
workers have run, the client then calls `Add(1)` and `Remove(1)`, and a late
`Submit` is refused without a change of state. -/
theorem Submit_after_Close_witness :
    ∃ p1 r,
      Close (Submit (New.loop Runtime.sample 2 (Pool.make 3)) "job" true).2
        [(0, true), (0, true), (1, true)] = some p1 ∧
      exec Runtime.sample [Event.add 1, Event.remove 1] { pool := p1, accepted := ["job"] } = some r ∧
      Submit r.pool "late" true = (SubmitResult.ErrClosed, r.pool) ∧
      Event.apply Runtime.sample r (Event.submit "late" true) = some r ∧
      Event.apply Runtime.sample r (Event.submitTo "late" 0) = some r :=
  ⟨_, _, rfl, rfl,
    Submit_after_Close Runtime.sample (Submit (New.loop Runtime.sample 2 (Pool.make 3)) "job" true).2 _
      [(0, true), (0, true), (1, true)] ["job"] [Event.add 1, Event.remove 1] _ "late" true 0
      rfl rfl⟩


/-! ## The worker loop -/

theorem updateWorker_updateWorker (f g : worker → worker) (w : Nat) (l : List worker) :
    updateWorker g w (updateWorker f w l) = updateWorker (fun x => g (f x)) w l := by
  induction l generalizing w with
  | nil => cases w <;> rfl
  | cons x xs ih => cases w <;> simp [updateWorker, ih]

theorem worker.step_returned {p : Pool} {w : Nat} {x : worker} (hx : p.heap[w]? = some x)
    (hpc : x.pc = LoopAt.returned) (pick : Bool) : worker.step p w pick = none := by
  simp [worker.step, hx, hpc]

theorem worker.step_exit_none (p : Pool) (w : Nat) (x : worker) (pick : Bool) :
    worker.step (worker.exit p w x) w pick = none := by
  cases hx : (worker.exit p w x).heap[w]? with
  | none => simp [worker.step, hx]
  | some y =>
    have hy : y.pc = LoopAt.returned := by
      simp only [worker.exit, updateWorker_getElem?, if_true] at hx
      cases hz : p.heap[w]? with
      | none => simp [hz] at hx
      | some z =>
        simp only [hz, Option.map_some'] at hx
        injection hx with hx
        rw [← hx]
    exact worker.step_returned hx hy pick

theorem worker.loop_of_step_none {p : Pool} {w : Nat} (h : ∀ pick, worker.step p w pick = none)
    (pick : Nat → Bool) (fuel : Nat) : worker.loop w pick fuel p = p := by
  cases fuel with
  | zero => rfl
  | succ f => simp [worker.loop, h]

theorem worker.loop_inner (q : List String) (p : Pool) (w : Nat) (x : worker)
    (pick : Nat → Bool) (fuel : Nat)
    (hx : p.heap[w]? = some x) (hpc : x.pc = LoopAt.inner) (hq : p.jobs.buf = q)
    (hfuel : q.length + 1 ≤ fuel) :
    worker.loop w pick fuel p =
      { p with jobs := { p.jobs with buf := [] },
               log := p.log ++ q.map (Record.got x.id) ++ [Record.shuttingDown x.id],
               wg := p.wg - 1,
               heap := updateWorker (fun y => { y with pc := LoopAt.returned }) w p.heap } := by
  induction q generalizing p fuel with
  | nil =>
    obtain ⟨f, rfl⟩ : ∃ f, fuel = f + 1 := ⟨fuel - 1, by omega⟩
    have hs : worker.step p w (pick f) = some (worker.exit p w x) := by
      simp [worker.step, hx, hpc, hq]
    rw [worker.loop, hs]
    simp only []
    rw [worker.loop_of_step_none (worker.step_exit_none p w x)]
    cases p with
    | mk jobs wg workers ctxDone nextID closed heap log =>
      cases jobs with
      | mk buf cap cl =>
        simp only at hq
        subst hq
        simp [worker.exit]
  | cons j rest ih =>
    obtain ⟨f, rfl⟩ : ∃ f, fuel = f + 1 := ⟨fuel - 1, by omega⟩
    have hs : worker.step p w (pick f) = some (worker.process p x j rest) := by
      simp [worker.step, hx, hpc, hq]
    rw [worker.loop, hs]
    simp only []
    rw [ih (worker.process p x j rest) f hx rfl (by simp at hfuel ⊢; omega)]
    simp [worker.process]

theorem worker.loop_outer (q : List String) (p : Pool) (w : Nat) (x : worker)
    (pick : Nat → Bool) (fuel : Nat)
    (hx : p.heap[w]? = some x) (hpc : x.pc = LoopAt.outer) (hq : p.jobs.buf = q)
    (hstop : worker.ctxDone p x = true ∨ p.jobs.closed = true)
    (hfuel : q.length + 2 ≤ fuel) :
    worker.loop w pick fuel p =
      { p with jobs := { p.jobs with buf := [] },
               log := p.log ++ q.map (Record.got x.id) ++ [Record.shuttingDown x.id],
               wg := p.wg - 1,
               heap := updateWorker (fun y => { y with pc := LoopAt.returned }) w p.heap } := by
  have toInner : ∀ (p : Pool) (f : Nat), p.heap[w]? = some x → p.jobs.buf.length + 1 ≤ f →
      worker.loop w pick f (worker.cancelled p w) =
        { p with jobs := { p.jobs with buf := [] },
                 log := p.log ++ p.jobs.buf.map (Record.got x.id) ++ [Record.shuttingDown x.id],
                 wg := p.wg - 1,
                 heap := updateWorker (fun y => { y with pc := LoopAt.returned }) w p.heap } := by
    intro p f hx hf
    have hx1 : (worker.cancelled p w).heap[w]? = some { x with pc := LoopAt.inner } := by
      simp [worker.cancelled, updateWorker_getElem?, hx]
    rw [worker.loop_inner p.jobs.buf _ w { x with pc := LoopAt.inner } pick f hx1 rfl rfl hf]
    simp [worker.cancelled, updateWorker_updateWorker]
  induction q generalizing p fuel with
  | nil =>
    obtain ⟨f, rfl⟩ : ∃ f, fuel = f + 1 := ⟨fuel - 1, by omega⟩
    rw [worker.loop]
    by_cases c1 : (p.jobs.closed && (!worker.ctxDone p x || pick f)) = true
    · have hs : worker.step p w (pick f) = some (worker.exit p w x) := by
        simp only [worker.step, hx, hpc, hq, List.isEmpty_nil, Bool.not_true, Bool.false_or, c1,
          if_true]
      rw [hs]
      simp only []
      rw [worker.loop_of_step_none (worker.step_exit_none p w x)]
      cases p with
      | mk jobs wg workers ctxDone nextID closed heap log =>
        cases jobs with
        | mk buf cap cl =>
          simp only at hq
          subst hq
          simp [worker.exit]
    · have hd : worker.ctxDone p x = true := by
        rcases hstop with hd | hc
        · exact hd
        · cases hd : worker.ctxDone p x with
          | true => rfl
          | false => simp [hc, hd] at c1
      have c2 : (p.jobs.closed && pick f) = false := by
        cases hc : p.jobs.closed <;> cases hp : pick f <;> simp [hc, hp, hd] at c1 ⊢
      have hs : worker.step p w (pick f) = some (worker.cancelled p w) := by
        simp [worker.step, hx, hpc, hq, hd, c2]
      rw [hs]
      simp only []
      rw [toInner p f hx (by rw [hq]; simp at hfuel ⊢; omega), hq]
  | cons j rest ih =>
    obtain ⟨f, rfl⟩ : ∃ f, fuel = f + 1 := ⟨fuel - 1, by omega⟩
    rw [worker.loop]
    by_cases c1 : (!worker.ctxDone p x || pick f) = true
    · have hs : worker.step p w (pick f) = some (worker.process p x j rest) := by
        simp only [worker.step, hx, hpc, hq, List.isEmpty_cons, Bool.not_false, Bool.true_or,
          Bool.true_and, c1, if_true]
      rw [hs]
      simp only []
      rw [ih (worker.process p x j rest) f hx rfl hstop (by simp at hfuel ⊢; omega)]
      simp [worker.process]
    · have hd : worker.ctxDone p x = true := by
        cases hd : worker.ctxDone p x with
        | true => rfl
        | false => simp [hd] at c1
      have c2 : pick f = false := by
        cases hp : pick f <;> simp [hp, hd] at c1 ⊢
      have hs : worker.step p w (pick f) = some (worker.cancelled p w) := by
        simp [worker.step, hx, hpc, hq, hd, c2]
      rw [hs]
      simp only []
      rw [toInner p f hx (by rw [hq]; simp at hfuel ⊢; omega), hq]

theorem processed_append_got (log : List Record) (id : Int) (q : List String) :
    (log ++ q.map (Record.got id) ++ [Record.shuttingDown id]).filterMap
        (fun r => match r with
          | Record.got _ data => some data
          | Record.shuttingDown _ => none) =
      log.filterMap
        (fun r => match r with
          | Record.got _ data => some data
          | Record.shuttingDown _ => none) ++ q := by
  induction q generalizing log with
  | nil => simp
  | cons j rest ih =>
    have h := ih (log ++ [Record.got id j])
    simpa using h

theorem worker.loop_result (p : Pool) (w : Nat) (x : worker) (pick : Nat → Bool) (fuel : Nat)
    (hx : p.heap[w]? = some x) (hlive : x.pc ≠ LoopAt.returned)
    (hstop : x.pc = LoopAt.inner ∨ worker.ctxDone p x = true ∨ p.jobs.closed = true)
    (hfuel : p.jobs.buf.length + 2 ≤ fuel) :
    worker.loop w pick fuel p =
      { p with jobs := { p.jobs with buf := [] },
               log := p.log ++ p.jobs.buf.map (Record.got x.id) ++ [Record.shuttingDown x.id],
               wg := p.wg - 1,
               heap := updateWorker (fun y => { y with pc := LoopAt.returned }) w p.heap } := by
  cases hpc : x.pc with
  | returned => exact absurd hpc hlive
  | inner => exact worker.loop_inner _ p w x pick fuel hx hpc rfl (by omega)
  | outer =>
    refine worker.loop_outer _ p w x pick fuel hx hpc rfl ?_ hfuel
    rcases hstop with h | h | h
    · rw [hpc] at h
      exact absurd h (by simp)
    · exact Or.inl h
    · exact Or.inr h

/-- C10: take a live worker (at either `select` of its loop) whose cancellation
has fired (its own `stop` or the root `cancel`), or which is already in its
inner loop, or whose queue is closed, and let it run alone: no other consumer,
no producer.  Whatever the choices `pick` at the `select`s where both cases are
ready, within `k + 2` selects for a queue content `j_1..j_k` the loop has
processed exactly `j_1..j_k`, each once and in FIFO order (the log grows by
their `got` lines under this worker's id, followed by one `shutting down`
line), the queue is empty, the wait group has been decremented once, the
worker has returned (it has not waited for new jobs, even if the queue is still
open) and can make no further move; nothing else in the pool has changed.
And at a queue that is closed and empty the receive case makes the worker
return at once, whether or not its cancellation has fired. -/
theorem worker.loop_spec (p : Pool) (w : Nat) (x : worker) (pick : Nat → Bool) (fuel : Nat)
    (hx : p.heap[w]? = some x) (hlive : x.pc ≠ LoopAt.returned)
    (hstop : x.pc = LoopAt.inner ∨ worker.ctxDone p x = true ∨ p.jobs.closed = true)
    (hfuel : p.jobs.buf.length + 2 ≤ fuel) :
    worker.loop w pick fuel p =
      { p with jobs := { p.jobs with buf := [] },
               log := p.log ++ p.jobs.buf.map (Record.got x.id) ++ [Record.shuttingDown x.id],
               wg := p.wg - 1,
               heap := updateWorker (fun y => { y with pc := LoopAt.returned }) w p.heap } ∧
    processed (worker.loop w pick fuel p) = processed p ++ p.jobs.buf ∧
    (worker.loop w pick fuel p).heap[w]? = some { x with pc := LoopAt.returned } ∧
    (∀ b, worker.step (worker.loop w pick fuel p) w b = none) ∧
    (p.jobs.closed = true → p.jobs.buf = [] →
      worker.step p w true = some (worker.exit p w x)) := by
  have main := worker.loop_result p w x pick fuel hx hlive hstop hfuel
  have hret : (worker.loop w pick fuel p).heap[w]? = some { x with pc := LoopAt.returned } := by
    rw [main]
    simp [updateWorker_getElem?, hx]
  refine ⟨main, ?_, hret, fun b => worker.step_returned hret rfl b, ?_⟩
  · rw [main]
    exact processed_append_got p.log x.id p.jobs.buf
  · intro hc hb
    cases hpc : x.pc with
    | returned => exact absurd hpc hlive
    | inner => simp [worker.step, hx, hpc, hb]
    | outer => simp [worker.step, hx, hpc, hb, hc]

/-- C10 at a pool with one worker and the jobs `a`, `b` queued when `Remove(1)`
stops the worker: the worker, always taking the cancellation case, processes
`a` then `b` and returns. -/
theorem worker.loop_spec_witness :
    processed (worker.loop 0 (fun _ => false) 4
      (Remove (Submit (Submit (New.loop Runtime.sample 1 (Pool.make 3)) "a" true).2 "b" true).2 1)) =
      processed (Remove (Submit (Submit (New.loop Runtime.sample 1 (Pool.make 3)) "a" true).2 "b" true).2 1) ++
        (Remove (Submit (Submit (New.loop Runtime.sample 1 (Pool.make 3)) "a" true).2 "b" true).2 1).jobs.buf :=
  (worker.loop_spec
    (Remove (Submit (Submit (New.loop Runtime.sample 1 (Pool.make 3)) "a" true).2 "b" true).2 1) 0
    { id := 0, done := true, pc := LoopAt.outer } (fun _ => false) 4
    rfl (by decide) (Or.inr (Or.inl rfl)) (by decide)).2.1


/-! ## What stays true along a history -/

theorem Add_fields (rt : Runtime) (p : Pool) (n : Int) :
    (Add rt p n).jobs = p.jobs ∧ (Add rt p n).ctxDone = p.ctxDone ∧
    (Add rt p n).closed = p.closed ∧ (Add rt p n).log = p.log := by
  unfold Add
  split
  · simp
  · rw [Add.loop_eq_New_loop]
    obtain ⟨-, -, i3, -, i5, -, i7, -, i9⟩ := New.loop_spec_fields rt n.toNat p
    exact ⟨i3, i5, i7, i9⟩

theorem Remove_fields (p : Pool) (n : Int) :
    (Remove p n).jobs = p.jobs ∧ (Remove p n).wg = p.wg ∧ (Remove p n).ctxDone = p.ctxDone ∧
    (Remove p n).nextID = p.nextID ∧ (Remove p n).closed = p.closed ∧
    (Remove p n).log = p.log ∧ (Remove p n).heap.length = p.heap.length := by
  obtain ⟨-, -, -, k4, k5, k6, k7, k8, k9, k10⟩ := Remove_eq p n
  exact ⟨k7, k8, k9, k5, k6, k10, k4⟩

theorem Submit_fields (p : Pool) (data : String) (pick : Bool) :
    (Submit p data pick).2.closed = p.closed ∧
    (Submit p data pick).2.jobs.closed = p.jobs.closed ∧
    (Submit p data pick).2.jobs.cap = p.jobs.cap ∧
    (Submit p data pick).2.ctxDone = p.ctxDone ∧
    (Submit p data pick).2.wg = p.wg ∧
    (Submit p data pick).2.workers = p.workers ∧
    (Submit p data pick).2.arrays = p.arrays ∧
    (Submit p data pick).2.nextID = p.nextID ∧
    (Submit p data pick).2.heap = p.heap ∧
    (Submit p data pick).2.log = p.log := by
  cases h1 : p.closed <;> cases h2 : p.jobs.closed <;> cases h3 : p.ctxDone <;> cases pick <;>
    by_cases h4 : p.jobs.buf.length < p.jobs.cap <;>
    simp [Submit, Submit.select, h1, h2, h3, h4]

theorem Event.apply_submit {rt : Runtime} {r r1 : Run} {data : String} {pick : Bool}
    (h : Event.apply rt r (Event.submit data pick) = some r1) :
    r1.pool = (Submit r.pool data pick).2 ∧
    (((Submit r.pool data pick).1 = SubmitResult.nil ∧ r1.accepted = r.accepted ++ [data]) ∨
     ((Submit r.pool data pick).1 = SubmitResult.ErrClosed ∧ r1.accepted = r.accepted)) := by
  simp only [Event.apply] at h
  generalize Submit r.pool data pick = res at h
  obtain ⟨res1, p2⟩ := res
  cases res1 with
  | nil =>
    simp only at h
    injection h with h
    subst h
    exact ⟨rfl, Or.inl ⟨rfl, rfl⟩⟩
  | ErrClosed =>
    simp only at h
    injection h with h
    subst h
    exact ⟨rfl, Or.inr ⟨rfl, rfl⟩⟩
  | panicked e => simp at h
  | blocked => simp at h

theorem Submit.handoff_eq {p p1 : Pool} {data : String} {w : Nat}
    (h : Submit.handoff p data w = some p1) :
    ∃ x, p.heap[w]? = some x ∧ x.pc ≠ LoopAt.returned ∧ p.jobs.closed = false ∧
      p.jobs.buf = [] ∧ p1 = { p with log := p.log ++ [Record.got x.id data] } := by
  unfold Submit.handoff at h
  cases hx : p.heap[w]? with
  | none => simp [hx] at h
  | some x =>
    simp only [hx] at h
    split_ifs at h with c
    injection h with h
    simp only [Bool.or_eq_true, Bool.not_eq_true', decide_eq_true_eq, not_or,
      Bool.not_eq_true, List.isEmpty_eq_false, Bool.not_eq_false'] at c
    refine ⟨x, rfl, c.2, c.1.1, ?_, h.symm⟩
    simpa using c.1.2

/-- Along every history of a single client the queue is closed exactly when the
pool is, and the root context is cancelled only in a closed pool. -/
theorem Event.apply_open {rt : Runtime} {r r1 : Run} {e : Event} (h : Event.apply rt r e = some r1)
    (hi : r.pool.jobs.closed = r.pool.closed ∧ (r.pool.ctxDone = true → r.pool.closed = true)) :
    r1.pool.jobs.closed = r1.pool.closed ∧ (r1.pool.ctxDone = true → r1.pool.closed = true) := by
  cases e with
  | submit data pick =>
    obtain ⟨hp, -⟩ := Event.apply_submit h
    obtain ⟨f1, f2, -, f4, -⟩ := Submit_fields r.pool data pick
    rw [hp, f1, f2, f4]
    exact hi
  | submitTo data w =>
    simp only [Event.apply] at h
    split_ifs at h with c
    · injection h with h
      subst h
      exact hi
    · cases hh : Submit.handoff r.pool data w with
      | none => simp [hh] at h
      | some p2 =>
        simp only [hh] at h
        injection h with h
        subst h
        obtain ⟨x, -, -, -, -, rfl⟩ := Submit.handoff_eq hh
        exact hi
  | add n =>
    simp only [Event.apply] at h
    injection h with h
    subst h
    obtain ⟨f1, f2, f3, -⟩ := Add_fields rt r.pool n
    simp only [f1, f2, f3]
    exact hi
  | remove n =>
    simp only [Event.apply] at h
    injection h with h
    subst h
    obtain ⟨f1, -, f3, -, f5, -⟩ := Remove_fields r.pool n
    simp only [f1, f3, f5]
    exact hi
  | close sched =>
    simp only [Event.apply] at h
    cases hh : Close r.pool sched with
    | none => simp [hh] at h
    | some p2 =>
      simp only [hh] at h
      injection h with h
      subst h
      rcases Close_cases hh with ⟨-, rfl⟩ | ⟨-, -, rfl⟩
      · exact hi
      · simp [Close.clear, Close.cancel, Close.mark, (runWorkers_fields sched _).1,
          (runWorkers_fields sched _).2.1]
  | work w pick =>
    simp only [Event.apply] at h
    injection h with h
    subst h
    obtain ⟨f1, f2, -, f4, -⟩ := runWorkers_fields [(w, pick)] r.pool
    simp only [f1, f2, f4]
    exact hi

theorem exec_open (es : List Event) {rt : Runtime} {r r1 : Run} (h : exec rt es r = some r1)
    (hi : r.pool.jobs.closed = r.pool.closed ∧ (r.pool.ctxDone = true → r.pool.closed = true)) :
    r1.pool.jobs.closed = r1.pool.closed ∧ (r1.pool.ctxDone = true → r1.pool.closed = true) := by
  induction es generalizing r with
  | nil =>
    simp only [exec] at h
    injection h with h
    subst h
    exact hi
  | cons e es ih =>
    simp only [exec] at h
    cases hh : Event.apply rt r e with
    | none => simp [hh] at h
    | some r2 =>
      simp only [hh] at h
      exact ih h (Event.apply_open hh hi)

theorem New_open {rt : Runtime} {initial buf : Int} {p0 : Pool} (h : New rt initial buf = Except.ok p0) :
    p0.jobs.closed = p0.closed ∧ (p0.ctxDone = true → p0.closed = true) := by
  unfold New at h
  split_ifs at h
  injection h with h
  subst h
  obtain ⟨-, -, i3, -, i5, -, i7, -⟩ := New.loop_spec_fields rt initial.toNat (Pool.make buf.toNat)
  rw [i3, i5, i7]
  simp [Pool.make]

theorem runWorkers_of_stuck (sched : List (Nat × Bool)) (p : Pool)
    (h : ∀ w pick, worker.step p w pick = none) : runWorkers sched p = p := by
  induction sched with
  | nil => rfl
  | cons a rest ih =>
    obtain ⟨w, pick⟩ := a
    simp [runWorkers, h, ih]

theorem Submit.select_closed_queue (p : Pool) (data : String) (pick : Bool)
    (hq : p.jobs.closed = true) (hctx : p.ctxDone = false) :
    Submit.select p data pick = (SubmitResult.panicked Panic.sendOnClosedChannel, p) := by
  simp [Submit.select, hq, hctx]

/-- C1, failing execution: `New(1, 1)`; `Remove(1)` stops the only worker, which
takes its cancellation case, finds the queue empty and returns; `Submit("a")`
returns `nil`; `Close()` then returns, under every schedule of the workers,
with job `a` still in the closed queue and never processed: one job accepted,
none processed, and no worker left that could process it. -/
theorem Close_loses_job :
    ∃ p0 r p1, New Runtime.sample 1 1 = Except.ok p0 ∧
      exec Runtime.sample
        [Event.remove 1, Event.work 0 false, Event.work 0 false, Event.submit "a" true]
        { pool := p0, accepted := [] } = some r ∧
      r.accepted = ["a"] ∧
      (∀ sched, Close r.pool sched = some p1) ∧
      processed p1 = [] ∧
      p1.jobs.buf = ["a"] ∧
      (∀ w pick, worker.step p1 w pick = none) := by
  have hstuck : ∀ w pick, worker.step (Close.mark
      (Submit (runWorkers [(0, false)] (runWorkers [(0, false)]
        (Remove (New.loop Runtime.sample 1 (Pool.make 1)) 1))) "a" true).2) w pick = none := by
    intro w pick
    cases w with
    | zero => rfl
    | succ k => rfl
  refine ⟨New.loop Runtime.sample 1 (Pool.make 1),
    { pool := (Submit (runWorkers [(0, false)] (runWorkers [(0, false)]
        (Remove (New.loop Runtime.sample 1 (Pool.make 1)) 1))) "a" true).2,
      accepted := ["a"] },
    Close.clear (Close.cancel (Close.mark
      (Submit (runWorkers [(0, false)] (runWorkers [(0, false)]
        (Remove (New.loop Runtime.sample 1 (Pool.make 1)) 1))) "a" true).2)),
    rfl, rfl, rfl, ?_, rfl, rfl, ?_⟩
  · intro sched
    have hb : Close.begin (Submit (runWorkers [(0, false)] (runWorkers [(0, false)]
        (Remove (New.loop Runtime.sample 1 (Pool.make 1)) 1))) "a" true).2 =
        some (Close.mark (Submit (runWorkers [(0, false)] (runWorkers [(0, false)]
          (Remove (New.loop Runtime.sample 1 (Pool.make 1)) 1))) "a" true).2) := rfl
    simp only [Close, hb, runWorkers_of_stuck sched _ hstuck]
    rfl
  · intro w pick
    cases w with
    | zero => rfl
    | succ k => rfl

/-- C2, failing execution: on the pool `New(1, 1)` a `Submit` reads
`closed = false` under the mutex (pool.go lines 54-56) and releases it; a
`Close` then runs its first critical section (lines 112-119) and closes the
queue; the `Submit` goes on to its `select` (line 62), whose send case is on
the closed queue while the context is still live: whatever the choice, the
send is attempted and panics. -/
theorem Submit_sends_on_closed_queue :
    ∃ p0 p1, New Runtime.sample 1 1 = Except.ok p0 ∧
      p0.closed = false ∧
      Close.begin p0 = some p1 ∧
      p1.jobs.closed = true ∧
      ∀ pick, Submit.select p1 "job" pick =
        (SubmitResult.panicked Panic.sendOnClosedChannel, p1) := by
  refine ⟨_, _, rfl, rfl, rfl, rfl, ?_⟩
  intro pick
  cases pick <;> rfl

/-- C3, failing execution: on the pool `New(1, 1)` job `a` fills the queue; a
second `Submit` passes its closed-check and its `select` has no ready case, so
it waits for queue space; `Close` is called and closes the queue (lines
112-119).  From then on, however the workers run while `Close` waits, the
`select` of the waiting `Submit` panics with a send on the closed queue: the
call does not return `ErrClosed`. -/
theorem Submit_blocked_panics_on_Close :
    ∃ p0 p1 p2, New Runtime.sample 1 1 = Except.ok p0 ∧
      Submit p0 "a" true = (SubmitResult.nil, p1) ∧
      p1.closed = false ∧
      (∀ pick, Submit.select p1 "b" pick = (SubmitResult.blocked, p1)) ∧
      Close.begin p1 = some p2 ∧
      ∀ sched pick, Submit.select (runWorkers sched p2) "b" pick =
        (SubmitResult.panicked Panic.sendOnClosedChannel, runWorkers sched p2) := by
  refine ⟨_, _, _, rfl, rfl, rfl, ?_, rfl, ?_⟩
  · intro pick
    cases pick <;> rfl
  · intro sched pick
    apply Submit.select_closed_queue
    · rw [(runWorkers_fields sched _).2.1]
      rfl
    · rw [(runWorkers_fields sched _).2.2.2.1]
      rfl

/-- C6, failing execution: on the pool `New(3, 0)`, whose registry `[0, 1, 2]`
lies in a backing array of 4 slots, a `Remove(2)` and an `Add(2)` overlap.
`Remove` runs its critical section (pool.go lines 94-101): `victims` is the
window of slots 1 and 2, which hold workers 1 and 2, and the registry is cut to
`[0]`.  It stops `victims[0]`, worker 1.  `Add(2)` now runs: each `append`
(line 81) finds capacity left and writes its new worker, 3 and then 4, into
slots 1 and 2 of the same array.  `Remove` then reads `victims[1]` (line 104)
and finds worker 4 there.  In the end the workers stopped are 1 and 4: worker
2, one of the two most recently added when `Remove` was called, is neither
stopped nor registered any more, and worker 4, added after, is stopped while
registered.  A `Remove(2)` that nothing overlaps stops workers 1 and 2. -/
theorem Remove_overlapping_Add_stops_new_worker :
    ∃ p0, New Runtime.sample 3 0 = Except.ok p0 ∧
      p0.registry = [0, 1, 2] ∧
      (Remove.detach p0 2).2.registry = [0] ∧
      [Remove.victim (Remove.detach p0 2).2 (Remove.detach p0 2).1 0,
       Remove.victim (Remove.detach p0 2).2 (Remove.detach p0 2).1 1] = [some 1, some 2] ∧
      (Remove.stopAt
        (Add Runtime.sample (Remove.stopAt (Remove.detach p0 2).2 (Remove.detach p0 2).1 0) 2)
        (Remove.detach p0 2).1 1).registry = [0, 3, 4] ∧
      (Remove.stopAt
        (Add Runtime.sample (Remove.stopAt (Remove.detach p0 2).2 (Remove.detach p0 2).1 0) 2)
        (Remove.detach p0 2).1 1).heap.map worker.done = [false, true, false, false, true] ∧
      (Remove p0 2).heap.map worker.done = [false, true, true] :=
  ⟨_, rfl, rfl, rfl, rfl, rfl, rfl, rfl⟩

/-- C7, failing execution: on the pool `New(1, 0)` two `Add(1)` calls run
concurrently.  Each executes `newWorker(p.nextID, ...)` (pool.go line 78, outside
the mutex) before the other has reached `p.nextID++`: both read `nextID = 1`.
Each then registers its worker under the mutex.  The pool now has two distinct
registered workers with the same id 1. -/
theorem Add_concurrent_duplicate_id :
    ∃ p0, New Runtime.sample 1 0 = Except.ok p0 ∧
      (Add.create p0).1 ≠ (Add.create (Add.create p0).2).1 ∧
      (Pool.register Runtime.sample
        (Pool.register Runtime.sample (Add.create (Add.create p0).2).2 (Add.create p0).1)
        (Add.create (Add.create p0).2).1).registry =
        [0, (Add.create p0).1, (Add.create (Add.create p0).2).1] ∧
      (Pool.register Runtime.sample
        (Pool.register Runtime.sample (Add.create (Add.create p0).2).2 (Add.create p0).1)
        (Add.create (Add.create p0).2).1).heap.map worker.id = [0, 1, 1] ∧
      (Pool.register Runtime.sample
        (Pool.register Runtime.sample (Add.create (Add.create p0).2).2 (Add.create p0).1)
        (Add.create (Add.create p0).2).1).nextID = 3 :=
  ⟨_, rfl, by decide, rfl, rfl, rfl⟩


/-! ## Every accepted job is in the log or in the queue -/

theorem runWorkers_preserves (P : Pool → Prop)
    (hstep : ∀ p w pick p1, P p → worker.step p w pick = some p1 → P p1)
    (sched : List (Nat × Bool)) (p : Pool) (hp : P p) : P (runWorkers sched p) := by
  induction sched generalizing p with
  | nil => exact hp
  | cons a rest ih =>
    obtain ⟨w, pick⟩ := a
    simp only [runWorkers]
    cases hs : worker.step p w pick with
    | none => exact ih p hp
    | some p1 => exact ih p1 (hstep p w pick p1 hp hs)

theorem exec_preserves (rt : Runtime) (P : Run → Prop)
    (hstep : ∀ r e r1, P r → Event.apply rt r e = some r1 → P r1)
    (es : List Event) (r r1 : Run) (hp : P r) (h : exec rt es r = some r1) : P r1 := by
  induction es generalizing r with
  | nil =>
    simp only [exec] at h
    injection h with h
    subst h
    exact hp
  | cons e es ih =>
    simp only [exec] at h
    cases hh : Event.apply rt r e with
    | none => simp [hh] at h
    | some r2 =>
      simp only [hh] at h
      exact ih r2 (hstep r e r2 hp hh) h

theorem processed_log_append (p : Pool) (log : List Record) (rs : List Record)
    (h : p.log = log ++ rs) :
    processed p = processed { p with log := log } ++ processed { p with log := rs } := by
  simp [processed, h]

theorem worker.step_processed {p p1 : Pool} {w : Nat} {pick : Bool}
    (h : worker.step p w pick = some p1) :
    processed p1 ++ p1.jobs.buf = processed p ++ p.jobs.buf := by
  obtain ⟨x, -, -, h1 | h1 | h1⟩ := worker.step_cases h
  · obtain ⟨job, rest, hb, rfl⟩ := h1
    simp [worker.process, processed, hb]
  · obtain ⟨-, -, rfl⟩ := h1
    simp [worker.exit, processed]
  · obtain ⟨-, -, rfl⟩ := h1
    simp [worker.cancelled, processed]

theorem runWorkers_processed (sched : List (Nat × Bool)) (p : Pool) :
    processed (runWorkers sched p) ++ (runWorkers sched p).jobs.buf =
      processed p ++ p.jobs.buf :=
  runWorkers_preserves (fun q => processed q ++ q.jobs.buf = processed p ++ p.jobs.buf)
    (fun _ _ _ _ hq hs => (worker.step_processed hs).trans hq) sched p rfl

/-- A worker returns only at an empty queue, and the workers never add to the
queue: if the wait group is above zero before a run of the workers and at zero
after it, the queue is empty after it. -/
theorem runWorkers_drained (sched : List (Nat × Bool)) (p : Pool)
    (hp : 0 < p.wg ∨ p.jobs.buf = []) (hw : (runWorkers sched p).wg = 0) :
    (runWorkers sched p).jobs.buf = [] := by
  have h := runWorkers_preserves (fun q => 0 < q.wg ∨ q.jobs.buf = [])
    (fun q w pick q1 hq hs => by
      obtain ⟨x, -, -, h1 | h1 | h1⟩ := worker.step_cases hs
      · obtain ⟨job, rest, hb, rfl⟩ := h1
        rcases hq with hq | hq
        · exact Or.inl hq
        · rw [hb] at hq
          exact absurd hq (by simp)
      · obtain ⟨hb, -, rfl⟩ := h1
        exact Or.inr hb
      · obtain ⟨-, -, rfl⟩ := h1
        exact hq) sched p hp
  rcases h with h | h
  · omega
  · exact h

/-- If some worker is still running when `Close` is called on an open pool (the
wait group is above zero), then `Close` returns only with the queue empty and
with every job that was in the queue processed, in queue order, after the jobs
processed before. -/
theorem Close_processes_queue {p p1 : Pool} {sched : List (Nat × Bool)}
    (h : Close p sched = some p1) (hopen : p.closed = false) (hwg : 0 < p.wg) :
    p1.jobs.buf = [] ∧ processed p1 = processed p ++ p.jobs.buf := by
  rcases Close_cases h with ⟨hc, -⟩ | ⟨-, hw, rfl⟩
  · rw [hopen] at hc
    exact absurd hc (by simp)
  · have h1 := runWorkers_drained sched (Close.mark p) (Or.inl hwg) hw
    have h2 := runWorkers_processed sched (Close.mark p)
    rw [h1] at h2
    refine ⟨h1, ?_⟩
    simpa [Close.clear, Close.cancel, Close.mark, processed] using h2

theorem Submit_eq (p : Pool) (data : String) (pick : Bool) :
    ((Submit p data pick).1 = SubmitResult.nil →
      (Submit p data pick).2 = { p with jobs := { p.jobs with buf := p.jobs.buf ++ [data] } }) ∧
    ((Submit p data pick).1 ≠ SubmitResult.nil → (Submit p data pick).2 = p) ∧
    ((Submit p data pick).1 = SubmitResult.panicked Panic.sendOnClosedChannel →
      p.closed = false ∧ p.jobs.closed = true) := by
  cases h1 : p.closed <;> cases h2 : p.jobs.closed <;> cases h3 : p.ctxDone <;> cases pick <;>
    by_cases h4 : p.jobs.buf.length < p.jobs.cap <;>
    simp [Submit, Submit.select, h1, h2, h3, h4]

theorem processed_congr {p q : Pool} (h : p.log = q.log) : processed p = processed q := by
  simp [processed, h]

/-- Along every history of a single client, the jobs processed so far followed
by the jobs in the queue are the jobs accepted so far, in the order of their
acceptance. -/
theorem Event.apply_accepted {rt : Runtime} {r r1 : Run} {e : Event} (h : Event.apply rt r e = some r1)
    (hi : processed r.pool ++ r.pool.jobs.buf = r.accepted) :
    processed r1.pool ++ r1.pool.jobs.buf = r1.accepted := by
  cases e with
  | submit data pick =>
    obtain ⟨hp, ⟨hn, ha⟩ | ⟨hn, ha⟩⟩ := Event.apply_submit h
    · rw [hp, ha, (Submit_eq r.pool data pick).1 hn, ← hi]
      simp [processed]
    · rw [hp, ha, (Submit_eq r.pool data pick).2.1 (by rw [hn]; simp)]
      exact hi
  | submitTo data w =>
    simp only [Event.apply] at h
    split_ifs at h with c
    · injection h with h
      subst h
      exact hi
    · cases hh : Submit.handoff r.pool data w with
      | none => simp [hh] at h
      | some p2 =>
        simp only [hh] at h
        injection h with h
        subst h
        obtain ⟨x, -, -, -, hb, rfl⟩ := Submit.handoff_eq hh
        rw [hb] at hi
        simp only [hb, ← hi]
        simp [processed]
  | add n =>
    simp only [Event.apply] at h
    injection h with h
    subst h
    obtain ⟨f1, -, -, f4⟩ := Add_fields rt r.pool n
    simp only [f1, processed_congr f4]
    exact hi
  | remove n =>
    simp only [Event.apply] at h
    injection h with h
    subst h
    obtain ⟨f1, -, -, -, -, f6, -⟩ := Remove_fields r.pool n
    simp only [f1, processed_congr f6]
    exact hi
  | close sched =>
    simp only [Event.apply] at h
    cases hh : Close r.pool sched with
    | none => simp [hh] at h
    | some p2 =>
      simp only [hh] at h
      injection h with h
      subst h
      rcases Close_cases hh with ⟨-, rfl⟩ | ⟨-, -, rfl⟩
      · exact hi
      · have h2 := runWorkers_processed sched (Close.mark r.pool)
        rw [← hi]
        simpa [Close.clear, Close.cancel, Close.mark, processed] using h2
  | work w pick =>
    simp only [Event.apply] at h
    injection h with h
    subst h
    rw [← hi]
    exact runWorkers_processed [(w, pick)] r.pool

theorem exec_accepted {rt : Runtime} {initial buf : Int} {p0 : Pool} {history : List Event} {r : Run}
    (h0 : New rt initial buf = Except.ok p0)
    (h1 : exec rt history { pool := p0, accepted := [] } = some r) :
    processed r.pool ++ r.pool.jobs.buf = r.accepted := by
  refine exec_preserves rt (fun r => processed r.pool ++ r.pool.jobs.buf = r.accepted)
    (fun _ _ _ hi h => Event.apply_accepted h hi) history _ r ?_ h1
  unfold New at h0
  split_ifs at h0
  injection h0 with h0
  subst h0
  obtain ⟨-, -, i3, -, -, -, -, -, i9⟩ :=
    New.loop_spec_fields rt initial.toNat (Pool.make buf.toNat)
  simp only [i3, processed, i9]
  simp [Pool.make]

/-! ## The wait group counts the running workers -/

theorem worker.running_iff (x : worker) : worker.running x = true ↔ x.pc ≠ LoopAt.returned := by
  cases x with
  | mk id done pc => cases pc <;> simp [worker.running]

theorem countP_updateWorker_same (f : worker → worker) (w : Nat) (l : List worker)
    (hf : ∀ x, l[w]? = some x → worker.running (f x) = worker.running x) :
    (updateWorker f w l).countP worker.running = l.countP worker.running := by
  induction l generalizing w with
  | nil => cases w <;> rfl
  | cons x xs ih =>
    cases w with
    | zero =>
      have h := hf x (by simp)
      simp [updateWorker, List.countP_cons, h]
    | succ w =>
      have h := ih w (fun y hy => hf y (by simpa using hy))
      simp [updateWorker, List.countP_cons, h]

theorem countP_updateWorker_returned (w : Nat) (l : List worker) (x : worker)
    (hx : l[w]? = some x) (hpc : x.pc ≠ LoopAt.returned) :
    (updateWorker (fun y => { y with pc := LoopAt.returned }) w l).countP worker.running + 1 =
      l.countP worker.running := by
  induction l generalizing w with
  | nil => simp at hx
  | cons y ys ih =>
    cases w with
    | zero =>
      simp only [List.getElem?_cons_zero, Option.some.injEq] at hx
      subst hx
      have h1 : worker.running y = true := (worker.running_iff y).mpr hpc
      simp [updateWorker, List.countP_cons, h1, worker.running]
    | succ w =>
      simp only [List.getElem?_cons_succ] at hx
      have h := ih w hx
      simp only [updateWorker, List.countP_cons]
      omega

theorem worker.step_live {p p1 : Pool} {w : Nat} {pick : Bool}
    (h : worker.step p w pick = some p1) (hi : p.wg = live p) : p1.wg = live p1 := by
  obtain ⟨x, hx, hpc, h1 | h1 | h1⟩ := worker.step_cases h
  · obtain ⟨job, rest, -, rfl⟩ := h1
    exact hi
  · obtain ⟨-, -, rfl⟩ := h1
    have hc := countP_updateWorker_returned w p.heap x hx hpc
    simp only [worker.exit, live] at hi ⊢
    omega
  · obtain ⟨hout, -, rfl⟩ := h1
    simp only [worker.cancelled, live] at hi ⊢
    rw [countP_updateWorker_same]
    · exact hi
    · intro y hy
      rw [hx] at hy
      injection hy with hy
      subst hy
      simp [worker.running, hout]

theorem runWorkers_live (sched : List (Nat × Bool)) (p : Pool) (hi : p.wg = live p) :
    (runWorkers sched p).wg = live (runWorkers sched p) :=
  runWorkers_preserves (fun q => q.wg = live q) (fun _ _ _ _ hq hs => worker.step_live hs hq)
    sched p hi

theorem New.loop_live (rt : Runtime) (k : Nat) (p : Pool) (hi : p.wg = live p) :
    (New.loop rt k p).wg = live (New.loop rt k p) := by
  obtain ⟨-, -, -, i4, -, -, -, i8, -⟩ := New.loop_spec_fields rt k p
  simp only [live, i4, i8, List.countP_append] at hi ⊢
  have h : ((List.range' 0 k).map fun i : Nat =>
      ({ id := p.nextID + (i : Int), done := false, pc := LoopAt.outer } : worker)).countP
      worker.running = k := by
    rw [List.countP_eq_length.mpr]
    · simp
    · intro x hx
      obtain ⟨i, -, rfl⟩ := List.mem_map.mp hx
      rfl
  rw [h, hi]

theorem foldl_stop_live (vs : List Nat) (p : Pool) :
    live (vs.foldl worker.stop p) = live p := by
  induction vs generalizing p with
  | nil => rfl
  | cons v vs ih =>
    have h := ih (worker.stop p v)
    simp only [List.foldl_cons] at h ⊢
    rw [h]
    simp only [live, worker.stop]
    exact countP_updateWorker_same _ v p.heap (fun _ _ => rfl)

theorem Remove_live (p : Pool) (n : Int) : live (Remove p n) = live p := by
  rw [Remove_eq_foldl, foldl_stop_live]
  rfl

theorem Event.apply_live {rt : Runtime} {r r1 : Run} {e : Event} (h : Event.apply rt r e = some r1)
    (hi : r.pool.wg = live r.pool) : r1.pool.wg = live r1.pool := by
  cases e with
  | submit data pick =>
    obtain ⟨hp, -⟩ := Event.apply_submit h
    obtain ⟨-, -, -, -, f5, -, -, -, f9, -⟩ := Submit_fields r.pool data pick
    rw [hp]
    simp only [live, f5, f9]
    exact hi
  | submitTo data w =>
    simp only [Event.apply] at h
    split_ifs at h with c
    · injection h with h
      subst h
      exact hi
    · cases hh : Submit.handoff r.pool data w with
      | none => simp [hh] at h
      | some p2 =>
        simp only [hh] at h
        injection h with h
        subst h
        obtain ⟨x, -, -, -, -, rfl⟩ := Submit.handoff_eq hh
        exact hi
  | add n =>
    simp only [Event.apply] at h
    injection h with h
    subst h
    simp only [Add]
    split
    · exact hi
    · rw [Add.loop_eq_New_loop]
      exact New.loop_live rt _ _ hi
  | remove n =>
    simp only [Event.apply] at h
    injection h with h
    subst h
    rw [Remove_live, (Remove_fields r.pool n).2.1]
    exact hi
  | close sched =>
    simp only [Event.apply] at h
    cases hh : Close r.pool sched with
    | none => simp [hh] at h
    | some p2 =>
      simp only [hh] at h
      injection h with h
      subst h
      rcases Close_cases hh with ⟨-, rfl⟩ | ⟨-, -, rfl⟩
      · exact hi
      · exact runWorkers_live sched (Close.mark r.pool) hi
  | work w pick =>
    simp only [Event.apply] at h
    injection h with h
    subst h
    exact runWorkers_live _ _ hi

theorem exec_live {rt : Runtime} {initial buf : Int} {p0 : Pool} {history : List Event} {r : Run}
    (h0 : New rt initial buf = Except.ok p0)
    (h1 : exec rt history { pool := p0, accepted := [] } = some r) :
    r.pool.wg = live r.pool := by
  refine exec_preserves rt (fun r => r.pool.wg = live r.pool)
    (fun _ _ _ hi h => Event.apply_live h hi) history _ r ?_ h1
  unfold New at h0
  split_ifs at h0
  injection h0 with h0
  subst h0
  exact New.loop_live rt _ _ rfl

/-! ## Close returns -/

theorem runWorkers_append (s1 s2 : List (Nat × Bool)) (p : Pool) :
    runWorkers (s1 ++ s2) p = runWorkers s2 (runWorkers s1 p) := by
  induction s1 generalizing p with
  | nil => rfl
  | cons a rest ih =>
    obtain ⟨w, pick⟩ := a
    simp only [List.cons_append, runWorkers]
    cases worker.step p w pick <;> exact ih _

theorem runWorkers_replicate (w : Nat) (b : Bool) (fuel : Nat) (p : Pool) :
    runWorkers (List.replicate fuel (w, b)) p = worker.loop w (fun _ => b) fuel p := by
  induction fuel generalizing p with
  | zero => rfl
  | succ f ih =>
    simp only [List.replicate_succ, runWorkers, worker.loop]
    cases hs : worker.step p w b with
    | none =>
      simp only []
      rw [ih]
      cases f with
      | zero => rfl
      | succ g => simp [worker.loop, hs]
    | some p1 => exact ih p1

/-- Once the queue is closed, the workers can be scheduled so that all of them
return. -/
theorem runWorkers_all_return (n : Nat) (q : Pool) (hc : q.jobs.closed = true)
    (hn : live q ≤ n) : ∃ sched, live (runWorkers sched q) = 0 := by
  induction n generalizing q with
  | zero => exact ⟨[], by simpa [runWorkers] using hn⟩
  | succ n ih =>
    by_cases h0 : live q = 0
    · exact ⟨[], by simpa [runWorkers] using h0⟩
    · have hpos : 0 < q.heap.countP worker.running := Nat.pos_of_ne_zero h0
      obtain ⟨x, hmem, hrun⟩ := List.countP_pos_iff.mp hpos
      obtain ⟨w, hw⟩ := List.mem_iff_getElem?.mp hmem
      have hpc : x.pc ≠ LoopAt.returned := (worker.running_iff x).mp hrun
      have hl := worker.loop_result q w x (fun _ => true) (q.jobs.buf.length + 2) hw hpc
        (Or.inr (Or.inr hc)) (le_refl _)
      have hcount := countP_updateWorker_returned w q.heap x hw hpc
      have hlive : live (worker.loop w (fun _ => true) (q.jobs.buf.length + 2) q) ≤ n := by
        rw [hl]
        simp only [live] at hn ⊢
        omega
      have hcl : (worker.loop w (fun _ => true) (q.jobs.buf.length + 2) q).jobs.closed = true := by
        rw [hl]
        exact hc
      obtain ⟨sched, hs⟩ := ih _ hcl hlive
      refine ⟨List.replicate (q.jobs.buf.length + 2) (w, true) ++ sched, ?_⟩
      rw [runWorkers_append, runWorkers_replicate]
      exact hs

/-- Whenever the wait group counts the running workers, as it does along every
history of a single client, the workers can be scheduled so that `Close`
returns. -/
theorem Close_returns (p : Pool) (hi : p.wg = live p) : ∃ sched p1, Close p sched = some p1 := by
  cases hc : p.closed with
  | true => exact ⟨[], p, by simp [Close, Close.begin, hc]⟩
  | false =>
    have hi1 : (Close.mark p).wg = live (Close.mark p) := hi
    obtain ⟨sched, hs⟩ := runWorkers_all_return (live (Close.mark p)) (Close.mark p) rfl
      (le_refl _)
    have hw : (runWorkers sched (Close.mark p)).wg = 0 := by
      rw [runWorkers_live sched _ hi1, hs]
    exact ⟨sched, Close.clear (Close.cancel (runWorkers sched (Close.mark p))),
      by simp [Close, Close.begin, hc, Close.waitDone, hw]⟩


/-! ## The registry along a history -/

theorem worker.step_heap_length {p p1 : Pool} {w : Nat} {pick : Bool}
    (h : worker.step p w pick = some p1) : p1.heap.length = p.heap.length := by
  obtain ⟨x, -, -, h1 | h1 | h1⟩ := worker.step_cases h
  · obtain ⟨job, rest, -, rfl⟩ := h1
    rfl
  · obtain ⟨-, -, rfl⟩ := h1
    simp [worker.exit, updateWorker_length]
  · obtain ⟨-, -, rfl⟩ := h1
    simp [worker.cancelled, updateWorker_length]

/-- In an open pool a worker that has not been stopped and is at its outer
`select` can only receive: no step of any worker changes its object. -/
theorem worker.step_unstopped {p p1 : Pool} {w : Nat} {pick : Bool}
    (h : worker.step p w pick = some p1)
    (ho : p.jobs.closed = p.closed ∧ (p.ctxDone = true → p.closed = true))
    (hopen : p.closed = false) (v : Nat) (y : worker)
    (hy : p.heap[v]? = some y) (hd : y.done = false) (hp : y.pc = LoopAt.outer) :
    p1.heap[v]? = some y := by
  have hq : p.jobs.closed = false := by rw [ho.1, hopen]
  have hctx : p.ctxDone = false := by
    cases hc : p.ctxDone with
    | false => rfl
    | true => rw [ho.2 hc] at hopen; exact absurd hopen (by simp)
  obtain ⟨x, hx, -, h1 | h1 | h1⟩ := worker.step_cases h
  · obtain ⟨job, rest, -, rfl⟩ := h1
    exact hy
  · obtain ⟨-, h2, rfl⟩ := h1
    by_cases hvw : v = w
    · subst hvw
      rw [hx] at hy
      injection hy with hy
      subst hy
      rcases h2 with h2 | h2
      · rw [hp] at h2
        exact absurd h2 (by simp)
      · rw [hq] at h2
        exact absurd h2 (by simp)
    · simp [worker.exit, updateWorker_getElem?, hvw, hy]
  · obtain ⟨-, h2, rfl⟩ := h1
    by_cases hvw : v = w
    · subst hvw
      rw [hx] at hy
      injection hy with hy
      subst hy
      simp [worker.ctxDone, hd, hctx] at h2
    · simp [worker.cancelled, updateWorker_getElem?, hvw, hy]

theorem runWorkers_unstopped (sched : List (Nat × Bool)) (p : Pool)
    (ho : p.jobs.closed = p.closed ∧ (p.ctxDone = true → p.closed = true))
    (hopen : p.closed = false) (v : Nat) (y : worker)
    (hy : p.heap[v]? = some y) (hd : y.done = false) (hp : y.pc = LoopAt.outer) :
    (runWorkers sched p).heap[v]? = some y := by
  have h := runWorkers_preserves
    (fun q => (q.jobs.closed = q.closed ∧ (q.ctxDone = true → q.closed = true)) ∧
      q.closed = false ∧ q.heap[v]? = some y)
    (fun q w pick q1 hq hs => by
      obtain ⟨f1, f2, -, f4, -⟩ := worker.step_fields hs
      refine ⟨⟨by rw [f1, f2]; exact hq.1.1, by rw [f1, f4]; exact hq.1.2⟩,
        by rw [f1]; exact hq.2.1, worker.step_unstopped hs hq.1 hq.2.1 v y hq.2.2 hd hp⟩)
    sched p ⟨ho, hopen, hy⟩
  exact h.2.2

theorem runWorkers_heap_length (sched : List (Nat × Bool)) (p : Pool) :
    (runWorkers sched p).heap.length = p.heap.length :=
  runWorkers_preserves (fun q => q.heap.length = p.heap.length)
    (fun _ _ _ _ hq hs => (worker.step_heap_length hs).trans hq) sched p rfl

theorem New.loop_registry (rt : Runtime) (k : Nat) (p : Pool) (C : Prop)
    (h1 : p.registry.Nodup) (h2 : ∀ w ∈ p.registry, w < p.heap.length)
    (h3 : C → ∀ w ∈ p.registry,
      ∃ x, p.heap[w]? = some x ∧ x.done = false ∧ x.pc = LoopAt.outer)
    (h4 : p.registry.length = p.workers.len) :
    (New.loop rt k p).registry.Nodup ∧
    (∀ w ∈ (New.loop rt k p).registry, w < (New.loop rt k p).heap.length) ∧
    (C → ∀ w ∈ (New.loop rt k p).registry,
      ∃ x, (New.loop rt k p).heap[w]? = some x ∧ x.done = false ∧ x.pc = LoopAt.outer) ∧
    (New.loop rt k p).registry.length = (New.loop rt k p).workers.len := by
  obtain ⟨i1, i2, -, -, -, -, -, i8, -⟩ := New.loop_spec_fields rt k p
  rw [i1, i2, i8]
  simp only [List.length_append, List.length_map, List.length_range', List.mem_append]
  refine ⟨?_, ?_, ?_, by omega⟩
  · rw [List.nodup_append]
    refine ⟨h1, List.nodup_range' _ _, ?_⟩
    intro w hw1 hw2
    have := h2 w hw1
    have := (List.mem_range'_1.mp hw2).1
    omega
  · intro w hw
    rcases hw with hw | hw
    · have := h2 w hw
      omega
    · have := (List.mem_range'_1.mp hw).2
      omega
  · intro hC w hw
    rcases hw with hw | hw
    · obtain ⟨x, hx, hd, hp⟩ := h3 hC w hw
      exact ⟨x, by rw [List.getElem?_append_left (h2 w hw)]; exact hx, hd, hp⟩
    · obtain ⟨hw1, hw2⟩ := List.mem_range'_1.mp hw
      refine ⟨{ id := p.nextID + ((w - p.heap.length : Nat) : Int), done := false,
                pc := LoopAt.outer }, ?_, rfl, rfl⟩
      rw [List.getElem?_append_right hw1, List.getElem?_map,
        List.getElem?_range' 0 1 (by omega : w - p.heap.length < k)]
      simp

theorem Remove_registry (p : Pool) (n : Int) (C : Prop)
    (h1 : p.registry.Nodup) (h2 : ∀ w ∈ p.registry, w < p.heap.length)
    (h3 : C → ∀ w ∈ p.registry,
      ∃ x, p.heap[w]? = some x ∧ x.done = false ∧ x.pc = LoopAt.outer)
    (h4 : p.registry.length = p.workers.len) :
    (Remove p n).registry.Nodup ∧
    (∀ w ∈ (Remove p n).registry, w < (Remove p n).heap.length) ∧
    (C → ∀ w ∈ (Remove p n).registry,
      ∃ x, (Remove p n).heap[w]? = some x ∧ x.done = false ∧ x.pc = LoopAt.outer) ∧
    (Remove p n).registry.length = (Remove p n).workers.len := by
  obtain ⟨k1, k2, k3, k4, -⟩ := Remove_eq p n
  rw [k1, k2, k4]
  refine ⟨List.Nodup.sublist (List.take_sublist _ _) h1,
    fun w hw => h2 w (List.mem_of_mem_take hw), ?_, ?_⟩
  · intro hC w hw
    obtain ⟨x, hx, hd, hp⟩ := h3 hC w (List.mem_of_mem_take hw)
    have hnot : w ∉ p.registry.drop
        (p.workers.len - (min (max n 0) (p.workers.len : Int)).toNat) :=
      fun hmem => List.disjoint_take_drop h1 (le_refl _) hw hmem
    exact ⟨x, by rw [k3 w, hx]; simp [hnot], hd, hp⟩
  · rw [List.length_take, h4]
    omega

/-- Along every history of a single client the registry holds distinct pointers
to allocated workers, its length is the length of the slice, and while the pool
is open every registered worker is unstopped and waiting at its outer
`select`. -/
theorem Event.apply_registry {rt : Runtime} {r r1 : Run} {e : Event}
    (h : Event.apply rt r e = some r1)
    (ho : r.pool.jobs.closed = r.pool.closed ∧ (r.pool.ctxDone = true → r.pool.closed = true))
    (hi : r.pool.registry.Nodup ∧ (∀ w ∈ r.pool.registry, w < r.pool.heap.length) ∧
      (r.pool.closed = false → ∀ w ∈ r.pool.registry,
        ∃ x, r.pool.heap[w]? = some x ∧ x.done = false ∧ x.pc = LoopAt.outer) ∧
      r.pool.registry.length = r.pool.workers.len) :
    r1.pool.registry.Nodup ∧ (∀ w ∈ r1.pool.registry, w < r1.pool.heap.length) ∧
    (r1.pool.closed = false → ∀ w ∈ r1.pool.registry,
      ∃ x, r1.pool.heap[w]? = some x ∧ x.done = false ∧ x.pc = LoopAt.outer) ∧
    r1.pool.registry.length = r1.pool.workers.len := by
  obtain ⟨i1, i2, i3, i4⟩ := hi
  cases e with
  | submit data pick =>
    obtain ⟨hp, -⟩ := Event.apply_submit h
    obtain ⟨f1, -, -, -, -, f6, f7, -, f9, -⟩ := Submit_fields r.pool data pick
    rw [hp, f1, f9, Pool.registry_congr f6 f7, f6]
    exact ⟨i1, i2, i3, i4⟩
  | submitTo data w =>
    simp only [Event.apply] at h
    split_ifs at h with c
    · injection h with h
      subst h
      exact ⟨i1, i2, i3, i4⟩
    · cases hh : Submit.handoff r.pool data w with
      | none => simp [hh] at h
      | some p2 =>
        simp only [hh] at h
        injection h with h
        subst h
        obtain ⟨x, -, -, -, -, rfl⟩ := Submit.handoff_eq hh
        exact ⟨i1, i2, i3, i4⟩
  | add n =>
    simp only [Event.apply] at h
    injection h with h
    subst h
    have hc := Add_closed rt r.pool n
    simp only [hc]
    simp only [Add]
    split
    · exact ⟨i1, i2, i3, i4⟩
    · rw [Add.loop_eq_New_loop]
      exact New.loop_registry rt _ _ _ i1 i2 i3 i4
  | remove n =>
    simp only [Event.apply] at h
    injection h with h
    subst h
    have hc := Remove_closed r.pool n
    simp only [hc]
    exact Remove_registry _ _ _ i1 i2 i3 i4
  | close sched =>
    simp only [Event.apply] at h
    cases hh : Close r.pool sched with
    | none => simp [hh] at h
    | some p2 =>
      simp only [hh] at h
      injection h with h
      subst h
      rcases Close_cases hh with ⟨-, rfl⟩ | ⟨-, -, rfl⟩
      · exact ⟨i1, i2, i3, i4⟩
      · have hreg : (Close.clear (Close.cancel
            (runWorkers sched (Close.mark r.pool)))).registry = [] := rfl
        rw [hreg]
        exact ⟨List.nodup_nil, by simp, by simp, rfl⟩
  | work w pick =>
    simp only [Event.apply] at h
    injection h with h
    subst h
    obtain ⟨f1, -, -, -, f5, -, -⟩ := runWorkers_fields [(w, pick)] r.pool
    simp only [f1, f5, runWorkers_registry, runWorkers_heap_length]
    refine ⟨i1, i2, fun hopen v hv => ?_, i4⟩
    obtain ⟨y, hy, hd, hp⟩ := i3 hopen v hv
    exact ⟨y, runWorkers_unstopped _ _ ho hopen v y hy hd hp, hd, hp⟩

theorem exec_registry {rt : Runtime} {initial buf : Int} {p0 : Pool} {history : List Event}
    {r : Run} (h0 : New rt initial buf = Except.ok p0)
    (h1 : exec rt history { pool := p0, accepted := [] } = some r) :
    r.pool.registry.Nodup ∧ (∀ w ∈ r.pool.registry, w < r.pool.heap.length) ∧
    (r.pool.closed = false → ∀ w ∈ r.pool.registry,
      ∃ x, r.pool.heap[w]? = some x ∧ x.done = false ∧ x.pc = LoopAt.outer) ∧
    r.pool.registry.length = r.pool.workers.len := by
  have h := exec_preserves rt
    (fun r => (r.pool.jobs.closed = r.pool.closed ∧
        (r.pool.ctxDone = true → r.pool.closed = true)) ∧
      r.pool.registry.Nodup ∧ (∀ w ∈ r.pool.registry, w < r.pool.heap.length) ∧
      (r.pool.closed = false → ∀ w ∈ r.pool.registry,
        ∃ x, r.pool.heap[w]? = some x ∧ x.done = false ∧ x.pc = LoopAt.outer) ∧
      r.pool.registry.length = r.pool.workers.len)
    (fun _ _ _ hi h => ⟨Event.apply_open h hi.1, Event.apply_registry h hi.1 hi.2⟩)
    history _ r ⟨New_open h0, ?_⟩ h1
  · exact h.2
  · unfold New at h0
    split_ifs at h0
    injection h0 with h0
    subst h0
    have hreg : (Pool.make buf.toNat).registry = [] := rfl
    exact New.loop_registry rt _ _ _ (by rw [hreg]; exact List.nodup_nil)
      (by rw [hreg]; simp) (by rw [hreg]; simp) (by rw [hreg]; rfl)

/-- What `Close` guarantees: in every history of a single client that starts
with `New`, if the pool is open and at least one worker is still registered
when `Close` is called, then when `Close` returns the queue is empty and the
jobs processed are exactly the jobs whose `Submit` returned `nil`, each once,
in the order of acceptance. -/
theorem Close_processes_accepted {rt : Runtime} {initial buf : Int} {p0 p1 : Pool}
    {history : List Event} {r : Run} {sched : List (Nat × Bool)}
    (h0 : New rt initial buf = Except.ok p0)
    (h1 : exec rt history { pool := p0, accepted := [] } = some r)
    (hopen : r.pool.closed = false) (hreg : r.pool.registry ≠ [])
    (h2 : Close r.pool sched = some p1) :
    p1.jobs.buf = [] ∧ processed p1 = r.accepted := by
  obtain ⟨-, -, i3, -⟩ := exec_registry h0 h1
  obtain ⟨w, hw⟩ := List.exists_mem_of_ne_nil _ hreg
  obtain ⟨x, hx, -, hp⟩ := i3 hopen w hw
  have hwg : 0 < r.pool.wg := by
    rw [exec_live h0 h1, live]
    exact List.countP_pos_iff.mpr
      ⟨x, List.mem_iff_getElem?.mpr ⟨w, hx⟩, (worker.running_iff x).mpr (by rw [hp]; simp)⟩
  obtain ⟨c1, c2⟩ := Close_processes_queue h2 hopen hwg
  exact ⟨c1, by rw [c2, exec_accepted h0 h1]⟩

/-- When no other call overlaps it, `Remove(n)` does what its comment says.  With
`m = min(max(n,0), k)` for a registry of `k` workers it leaves the registry
equal to its first `k - m` entries in unchanged order, requests a stop of
exactly the last `m` entries (the most recently added) and of no other worker
object, and changes nothing else: ids, loop positions, the queue, the wait
group, the root context, `nextID`, `closed` and the log are as before.  In
particular `n > k` stops every registered worker and empties the registry, and
`n <= 0` changes nothing.  This holds in every pool reached from `New` by a
history of a single client. -/
theorem Remove_alone {rt : Runtime} {initial buf : Int} {p0 : Pool} {history : List Event}
    {r : Run} (h0 : New rt initial buf = Except.ok p0)
    (h1 : exec rt history { pool := p0, accepted := [] } = some r) (n : Int) :
    (Remove r.pool n).registry = r.pool.registry.take
      (r.pool.registry.length - (min (max n 0) r.pool.registry.length).toNat) ∧
    (∀ w, (Remove r.pool n).heap[w]? = r.pool.heap[w]?.map fun x =>
      if w ∈ r.pool.registry.drop
        (r.pool.registry.length - (min (max n 0) r.pool.registry.length).toNat)
      then { x with done := true } else x) ∧
    (Remove r.pool n).heap.length = r.pool.heap.length ∧
    (Remove r.pool n).nextID = r.pool.nextID ∧
    (Remove r.pool n).closed = r.pool.closed ∧
    (Remove r.pool n).jobs = r.pool.jobs ∧
    (Remove r.pool n).wg = r.pool.wg ∧
    (Remove r.pool n).ctxDone = r.pool.ctxDone ∧
    (Remove r.pool n).log = r.pool.log ∧
    ((r.pool.registry.length : Int) < n → (Remove r.pool n).registry = []) ∧
    (n ≤ 0 → Remove r.pool n = r.pool) := by
  obtain ⟨-, -, -, i4⟩ := exec_registry h0 h1
  obtain ⟨k1, -, k3, k4, k5, k6, k7, k8, k9, k10⟩ := Remove_eq r.pool n
  rw [← i4] at k1 k3
  refine ⟨k1, k3, k4, k5, k6, k7, k8, k9, k10, ?_, fun hn => by simp [Remove, hn]⟩
  intro hk
  have hm : (min (max n 0) (r.pool.registry.length : Int)).toNat = r.pool.registry.length := by
    rw [max_eq_left (by omega), min_eq_right (by omega)]
    simp
  rw [k1, hm]
  simp


/-! ## What holds when the calls do not overlap -/

/-- In a history of a single client no `Submit` sends on a closed queue: the
panic needs a `Close` that runs between the closed-check and the `select`. -/
theorem Submit_no_panic_in_history {rt : Runtime} {initial buf : Int} {p0 : Pool} {history : List Event}
    {r : Run} (h0 : New rt initial buf = Except.ok p0)
    (h1 : exec rt history { pool := p0, accepted := [] } = some r)
    (data : String) (pick : Bool) (e : Panic) :
    (Submit r.pool data pick).1 ≠ SubmitResult.panicked e := by
  obtain ⟨i1, -⟩ := exec_open history h1 (New_open h0)
  cases h1c : r.pool.closed <;> cases h2 : r.pool.jobs.closed <;>
    cases h3 : r.pool.ctxDone <;> cases pick <;>
    by_cases h4 : r.pool.jobs.buf.length < r.pool.jobs.cap <;>
    simp [Submit, Submit.select, h1c, h2, h3, h4] <;>
    simp [h1c, h2] at i1

theorem updateWorker_map_id (f : worker → worker) (hf : ∀ x, (f x).id = x.id) (w : Nat)
    (l : List worker) : (updateWorker f w l).map worker.id = l.map worker.id := by
  induction l generalizing w with
  | nil => cases w <;> rfl
  | cons x xs ih => cases w <;> simp [updateWorker, ih, hf]

theorem worker.step_ids {p p1 : Pool} {w : Nat} {pick : Bool}
    (h : worker.step p w pick = some p1) :
    p1.heap.map worker.id = p.heap.map worker.id := by
  obtain ⟨x, -, -, h1 | h1 | h1⟩ := worker.step_cases h
  · obtain ⟨job, rest, -, rfl⟩ := h1
    rfl
  · obtain ⟨-, -, rfl⟩ := h1
    simp only [worker.exit]
    apply updateWorker_map_id
    intro _
    rfl
  · obtain ⟨-, -, rfl⟩ := h1
    simp only [worker.cancelled]
    apply updateWorker_map_id
    intro _
    rfl

theorem runWorkers_ids (sched : List (Nat × Bool)) (p : Pool) :
    (runWorkers sched p).heap.map worker.id = p.heap.map worker.id :=
  runWorkers_preserves (fun q => q.heap.map worker.id = p.heap.map worker.id)
    (fun _ _ _ _ hq hs => (worker.step_ids hs).trans hq) sched p rfl

theorem foldl_stop_ids (vs : List Nat) (p : Pool) :
    (vs.foldl worker.stop p).heap.map worker.id = p.heap.map worker.id := by
  induction vs generalizing p with
  | nil => rfl
  | cons v vs ih =>
    have h := ih (worker.stop p v)
    simp only [List.foldl_cons] at h ⊢
    rw [h]
    simp only [worker.stop]
    apply updateWorker_map_id
    intro _
    rfl

theorem New.loop_ids (rt : Runtime) (k : Nat) (p : Pool)
    (h1 : ∀ i ∈ p.heap.map worker.id, i < p.nextID) (h2 : (p.heap.map worker.id).Nodup) :
    (∀ i ∈ (New.loop rt k p).heap.map worker.id, i < (New.loop rt k p).nextID) ∧
    ((New.loop rt k p).heap.map worker.id).Nodup ∧
    p.nextID ≤ (New.loop rt k p).nextID := by
  obtain ⟨-, -, -, -, -, i6, -, i8, -⟩ := New.loop_spec_fields rt k p
  rw [i6, i8]
  simp only [List.map_append, List.map_map, List.mem_append]
  have hnew : ∀ i ∈ (List.range' 0 k).map (worker.id ∘ fun i : Nat =>
      ({ id := p.nextID + (i : Int), done := false, pc := LoopAt.outer } : worker)),
      p.nextID ≤ i ∧ i < p.nextID + k := by
    intro i hi
    obtain ⟨j, hj, rfl⟩ := List.mem_map.mp hi
    have := (List.mem_range'_1.mp hj).2
    simp only [Function.comp]
    omega
  refine ⟨?_, ?_, by omega⟩
  · intro i hi
    rcases hi with hi | hi
    · have := h1 i hi
      omega
    · exact (hnew i hi).2
  · rw [List.nodup_append]
    refine ⟨h2, ?_, ?_⟩
    · refine List.Nodup.map ?_ (List.nodup_range' _ _)
      intro a b hab
      simp only [Function.comp] at hab
      omega
    · intro i hi1 hi2
      have := h1 i hi1
      have := (hnew i hi2).1
      omega

/-- When the calls of the pool do not overlap, worker ids are unique: along
every history of a single client no two workers ever created carry the same
id, every id handed out is below `nextID`, and `nextID` never decreases. -/
theorem Event.apply_ids {rt : Runtime} {r r1 : Run} {e : Event} (h : Event.apply rt r e = some r1)
    (hi : (∀ i ∈ r.pool.heap.map worker.id, i < r.pool.nextID) ∧
      (r.pool.heap.map worker.id).Nodup) :
    ((∀ i ∈ r1.pool.heap.map worker.id, i < r1.pool.nextID) ∧
      (r1.pool.heap.map worker.id).Nodup) ∧
    r.pool.nextID ≤ r1.pool.nextID := by
  cases e with
  | submit data pick =>
    obtain ⟨hp, -⟩ := Event.apply_submit h
    obtain ⟨-, -, -, -, -, -, -, f8, f9, -⟩ := Submit_fields r.pool data pick
    rw [hp, f8, f9]
    exact ⟨hi, le_refl _⟩
  | submitTo data w =>
    simp only [Event.apply] at h
    split_ifs at h with c
    · injection h with h
      subst h
      exact ⟨hi, le_refl _⟩
    · cases hh : Submit.handoff r.pool data w with
      | none => simp [hh] at h
      | some p2 =>
        simp only [hh] at h
        injection h with h
        subst h
        obtain ⟨x, -, -, -, -, rfl⟩ := Submit.handoff_eq hh
        exact ⟨hi, le_refl _⟩
  | add n =>
    simp only [Event.apply] at h
    injection h with h
    subst h
    simp only [Add]
    split
    · exact ⟨hi, le_refl _⟩
    · rw [Add.loop_eq_New_loop]
      obtain ⟨a, b, c⟩ := New.loop_ids rt n.toNat r.pool hi.1 hi.2
      exact ⟨⟨a, b⟩, c⟩
  | remove n =>
    simp only [Event.apply] at h
    injection h with h
    subst h
    have hn := (Remove_fields r.pool n).2.2.2.1
    have hh : (Remove r.pool n).heap.map worker.id = r.pool.heap.map worker.id := by
      rw [Remove_eq_foldl, foldl_stop_ids]
    simp only [hn, hh]
    exact ⟨hi, le_refl _⟩
  | close sched =>
    simp only [Event.apply] at h
    cases hh : Close r.pool sched with
    | none => simp [hh] at h
    | some p2 =>
      simp only [hh] at h
      injection h with h
      subst h
      rcases Close_cases hh with ⟨-, rfl⟩ | ⟨-, -, rfl⟩
      · exact ⟨hi, le_refl _⟩
      · have h1 := runWorkers_ids sched (Close.mark r.pool)
        have h2 := (runWorkers_fields sched (Close.mark r.pool)).2.2.2.2.2.1
        simp only [Close.clear, Close.cancel, h1, h2]
        exact ⟨hi, le_refl _⟩
  | work w pick =>
    simp only [Event.apply] at h
    injection h with h
    subst h
    simp only [runWorkers_ids, (runWorkers_fields [(w, pick)] r.pool).2.2.2.2.2.1]
    exact ⟨hi, le_refl _⟩

theorem exec_ids {rt : Runtime} {initial buf : Int} {p0 : Pool} {history : List Event} {r : Run}
    (h0 : New rt initial buf = Except.ok p0)
    (h1 : exec rt history { pool := p0, accepted := [] } = some r) :
    (∀ i ∈ r.pool.heap.map worker.id, i < r.pool.nextID) ∧
    (r.pool.heap.map worker.id).Nodup := by
  refine exec_preserves rt
    (fun r => (∀ i ∈ r.pool.heap.map worker.id, i < r.pool.nextID) ∧
      (r.pool.heap.map worker.id).Nodup)
    (fun _ _ _ hi h => (Event.apply_ids h hi).1) history _ r ?_ h1
  unfold New at h0
  split_ifs at h0
  injection h0 with h0
  subst h0
  obtain ⟨a, b, -⟩ := New.loop_ids rt initial.toNat (Pool.make buf.toNat)
    (by simp [Pool.make]) (by simp [Pool.make])
  exact ⟨a, b⟩

/-! ## Submit once every worker has been removed -/

/-- C8, counterexample: `New(1, 1)`, then `Remove(2)` stops the only worker,
which sees the cancellation and returns; `Submit("a")` is accepted and fills
the queue.  The pool is open and its registry is empty, so `Remove(1)` asks for
more workers than are registered.  The `Submit("b")` after it does not return
`nil`: its `select` has no ready case, no worker can move to make room, and no
worker can take the job by hand-over. -/
theorem Submit_blocks_on_full_queue :
    ∃ p0 q, New Runtime.sample 1 1 = Except.ok p0 ∧
      exec Runtime.sample
        [Event.remove 2, Event.work 0 false, Event.work 0 false, Event.submit "a" true]
        { pool := p0, accepted := [] } = some { pool := q, accepted := ["a"] } ∧
      q.closed = false ∧
      (q.registry.length : Int) < 1 ∧
      q.jobs.buf.length = q.jobs.cap ∧
      (∀ pick, Submit (Remove q 1) "b" pick = (SubmitResult.blocked, Remove q 1)) ∧
      (∀ w pick, worker.step (Remove q 1) w pick = none) ∧
      (∀ w, Submit.handoff (Remove q 1) "b" w = none) := by
  refine ⟨_, _, rfl, rfl, rfl, by decide, rfl, ?_, ?_, ?_⟩
  · intro pick
    cases pick <;> rfl
  · intro w pick
    cases w with
    | zero => rfl
    | succ k => rfl
  · intro w
    cases w with
    | zero => rfl
    | succ k => rfl

theorem stuck_of_live_zero (p : Pool) (h : live p = 0) :
    (∀ w pick, worker.step p w pick = none) ∧ (∀ data w, Submit.handoff p data w = none) := by
  have hall : ∀ (w : Nat) (x : worker), p.heap[w]? = some x → x.pc = LoopAt.returned := by
    intro w x hx
    have hnot := (List.countP_eq_zero.mp h) x (List.mem_iff_getElem?.mpr ⟨w, hx⟩)
    cases x with
    | mk id done pc => cases pc <;> simp [worker.running] at hnot ⊢
  refine ⟨fun w pick => ?_, fun data w => ?_⟩
  · cases hx : p.heap[w]? with
    | none => simp [worker.step, hx]
    | some x => simp [worker.step, hx, hall w x hx]
  · cases hx : p.heap[w]? with
    | none => simp [Submit.handoff, hx]
    | some x => simp [Submit.handoff, hx, hall w x hx]

/-- C8, amended: in every open pool reached from `New` by a history of calls
and worker steps, after a `Remove(n)` with `n` greater than the number of
registered workers the registry is empty, and a subsequent `Submit` of any job
returns `nil` with the job appended to the queue (and nothing else changed)
whenever the queue holds fewer jobs than its capacity.  When the queue is full,
as it always is for capacity 0, the call does not return `nil` at once: its
`select` finds no room and no cancellation, the pool is as it was, and the call
waits for a worker that is still running to receive; once every worker has
returned no worker can move or take the job, and the call stays blocked. -/
theorem Submit_after_Remove_all (rt : Runtime) (initial buf : Int) (p0 : Pool)
    (history : List Event) (r : Run) (n : Int) (data : String) (pick : Bool)
    (h0 : New rt initial buf = Except.ok p0)
    (h1 : exec rt history { pool := p0, accepted := [] } = some r)
    (hopen : r.pool.closed = false)
    (hn : (r.pool.registry.length : Int) < n) :
    (Remove r.pool n).registry = [] ∧
    (r.pool.jobs.buf.length < r.pool.jobs.cap →
      Submit (Remove r.pool n) data pick =
        (SubmitResult.nil,
          { (Remove r.pool n) with
              jobs := { r.pool.jobs with buf := r.pool.jobs.buf ++ [data] } })) ∧
    (r.pool.jobs.cap ≤ r.pool.jobs.buf.length →
      Submit (Remove r.pool n) data pick = (SubmitResult.blocked, Remove r.pool n) ∧
      (live r.pool = 0 →
        (∀ w b, worker.step (Remove r.pool n) w b = none) ∧
        (∀ w, Submit.handoff (Remove r.pool n) data w = none))) := by
  obtain ⟨i1, i2⟩ := exec_open history h1 (New_open h0)
  have hq : r.pool.jobs.closed = false := by rw [i1, hopen]
  have hctx : r.pool.ctxDone = false := by
    cases hc : r.pool.ctxDone with
    | false => rfl
    | true => rw [i2 hc] at hopen; exact absurd hopen (by simp)
  obtain ⟨f1, -, f3, -, f5, -⟩ := Remove_fields r.pool n
  have hw : (Remove r.pool n).registry = [] := (Remove_alone h0 h1 n).2.2.2.2.2.2.2.2.2.1 hn
  refine ⟨hw, ?_, ?_⟩
  · intro hroom
    simp [Submit, Submit.select, f1, f3, f5, hopen, hq, hctx, hroom]
  · intro hfull
    have hroom : ¬ r.pool.jobs.buf.length < r.pool.jobs.cap := by omega
    refine ⟨by simp [Submit, Submit.select, f1, f3, f5, hopen, hq, hctx, hroom], ?_⟩
    intro hl
    have hl1 : live (Remove r.pool n) = 0 := by
      rw [Remove_live, hl]
    exact ⟨(stuck_of_live_zero _ hl1).1, fun w => (stuck_of_live_zero _ hl1).2 data w⟩

/-- C8, the amended claim at `New(1, 2)` with one job queued and `Remove(3)`. -/
theorem Submit_after_Remove_all_witness :
    Submit (Remove (Submit (New.loop Runtime.sample 1 (Pool.make 2)) "a" true).2 3) "b" true =
      (SubmitResult.nil,
        { (Remove (Submit (New.loop Runtime.sample 1 (Pool.make 2)) "a" true).2 3) with
            jobs := { (Submit (New.loop Runtime.sample 1 (Pool.make 2)) "a" true).2.jobs with
              buf := (Submit (New.loop Runtime.sample 1 (Pool.make 2)) "a" true).2.jobs.buf ++ ["b"] } }) :=
  (Submit_after_Remove_all Runtime.sample 1 2 (New.loop Runtime.sample 1 (Pool.make 2)) [Event.submit "a" true]
    { pool := (Submit (New.loop Runtime.sample 1 (Pool.make 2)) "a" true).2, accepted := ["a"] } 3 "b" true
    rfl rfl rfl (by decide)).2.1 (by decide)



end workerpool
